import Mathlib

/-!
# Verification of the plex-clean webhook relay

A shallow embedding of the Go program `main.go` of `mallocator/plex-clean`:
a webhook relay that receives "playback stopped" events from Plex or
Jellyfin, resolves a numeric content key, queries the Tautulli history API,
tolerantly repairs the JSON response, and writes a JSON descriptor file for
items watched to completion.

Strings are modelled as `List Char`.  Go's `float64` values appearing in
the JSON payloads are modelled exactly as rationals (`ℚ`): every decimal
literal occurring in the development is far from any rounding boundary, so
the verdicts of all comparisons coincide with IEEE double semantics.
Machine integers (`int`, `int64`) are modelled as `Int` with the explicit
two's-complement range bound `2 ^ 63` enforced where Go's `strconv`
functions enforce it.  The filesystem is modelled as a map from filenames
to file contents, and the single outbound HTTP call as an oracle value
describing the upstream's behaviour.
-/

set_option maxRecDepth 10000

namespace PlexClean

/-- Strings of the Go program, modelled as lists of characters. -/
abbrev Str := List Char

/-- Convenience conversion from Lean string literals. -/
def chars (s : String) : Str := s.data

/-- JSON whitespace characters (RFC 8259): space, tab, line feed, carriage
return.  This is exactly the set Go's `encoding/json` scanner skips. -/
def isJsonWs (c : Char) : Bool :=
  c = ' ' || c = '\t' || c = '\n' || c = '\r'

/-- The character class matched by `\s` in Go's `regexp` package:
`[\t\n\f\r ]`.  It contains form feed in addition to the JSON whitespace. -/
def isGoWs (c : Char) : Bool :=
  isJsonWs c || c = '\x0c'

/-- All characters are decimal digits. -/
def allDigits (s : Str) : Bool := s.all Char.isDigit

/-- Numeric value of a string of decimal digits (most significant first). -/
def digitsVal (s : Str) : Nat :=
  s.foldl (fun a c => a * 10 + (c.toNat - 48)) 0

/-- Whether Go's `strconv.Atoi` (equivalently `strconv.ParseInt(s, 10, 64)`
on a 64-bit platform) succeeds on `s`: an optional sign followed by a
nonempty run of decimal digits whose value fits in a signed 64-bit
integer. -/
def goAtoiOk (s : Str) : Bool :=
  match s with
  | [] => false
  | c :: rest =>
    if c = '-' then
      !rest.isEmpty && allDigits rest && digitsVal rest ≤ 2 ^ 63
    else if c = '+' then
      !rest.isEmpty && allDigits rest && digitsVal rest ≤ 2 ^ 63 - 1
    else
      allDigits s && digitsVal s ≤ 2 ^ 63 - 1

/-- The integer value `strconv.Atoi` returns when it succeeds. -/
def atoiVal (s : Str) : Int :=
  match s with
  | [] => 0
  | c :: rest =>
    if c = '-' then -(digitsVal rest : Int)
    else if c = '+' then (digitsVal rest : Int)
    else (digitsVal s : Int)

/-- `json.Number.Int64`, i.e. `strconv.ParseInt(string(n), 10, 64)`:
`some` of the value on success, `none` on a parse error. -/
def goNumberInt64 (s : Str) : Option Int :=
  if goAtoiOk s then some (atoiVal s) else none

/-! ## The key extractor (`extractKeyFromPath`) -/

/-- Index of the first occurrence of `pat` as a contiguous substring of
`s`, as computed by Go's `strings.Index` (`-1` becomes `none`). -/
def findSub (s pat : Str) : Option Nat :=
  if pat.isPrefixOf s then some 0
  else
    match s with
    | [] => none
    | _ :: t => (findSub t pat).map (· + 1)

/-- Index of the last `'/'` in `s`, as computed by Go's
`strings.LastIndex(path, "/")` (`-1` becomes `none`). -/
def lastSlashIdx : Str → Option Nat
  | [] => none
  | c :: rest =>
    match lastSlashIdx rest with
    | some i => some (i + 1)
    | none => if c = '/' then some 0 else none

/-- The literal marker searched for by `extractKeyFromPath`. -/
def marker : Str := chars "/library/metadata/"

/-- `extractKeyFromPath` from `main.go`: look for `/library/metadata/` and
take everything after it if `strconv.Atoi` accepts it; otherwise fall back
to the segment after the last slash, again gated by `strconv.Atoi`;
otherwise return the empty string. -/
def extractKeyFromPath (path : Str) : Str :=
  let fb :=
    match lastSlashIdx path with
    | some i =>
      let k := path.drop (i + 1)
      if goAtoiOk k then k else []
    | none => []
  match findSub path marker with
  | some i =>
    let k := path.drop (i + marker.length)
    if goAtoiOk k then k else fb
  | none => fb

/-! ## JSON lexical layer

Go's `encoding/json` is modelled in three stages: a tokenizer over the raw
characters, a token parser producing a JSON value tree, and a structural
decoder mirroring how `json.Unmarshal` fills the `TautulliResponse`
struct.  The model keeps exactly the behaviour the program depends on;
Go's case-insensitive field-name fallback and the pairing of `\u` escape
surrogates are not modelled (no claim involves either). -/

/-- Characters that may occur in a JSON number literal. -/
def isNumChar (c : Char) : Bool :=
  c.isDigit || c = '-' || c = '+' || c = '.' || c = 'e' || c = 'E'

/-- Exponent part after `e`/`E`: optional sign, then a nonempty digit run
reaching the end of the literal. -/
def expTail (s : Str) : Bool :=
  match s with
  | [] => false
  | c :: t => if c = '+' || c = '-' then !t.isEmpty && allDigits t else allDigits s

/-- What may follow the fraction digits: nothing, or an exponent. -/
def afterFrac (s : Str) : Bool :=
  match s with
  | [] => true
  | c :: t => if c = 'e' || c = 'E' then expTail t else false

/-- What may follow the integer part: nothing, a fraction, an exponent. -/
def afterInt (s : Str) : Bool :=
  match s with
  | [] => true
  | c :: t =>
    if c = '.' then
      !(t.takeWhile Char.isDigit).isEmpty && afterFrac (t.dropWhile Char.isDigit)
    else afterFrac s

/-- The integer part and what follows it: `0` alone or a nonzero digit
run, then `afterInt`. -/
def intPartValid : Str → Bool
  | [] => false
  | c :: t =>
    if c = '0' then afterInt t
    else if c.isDigit then afterInt (t.dropWhile Char.isDigit)
    else false

/-- The RFC 8259 number grammar, as enforced both by Go's JSON scanner and
by `isValidNumber` (used when a JSON string is decoded into a
`json.Number`). -/
def jsonNumberValid (s : Str) : Bool :=
  match s with
  | [] => false
  | c :: t => if c = '-' then intPartValid t else intPartValid (c :: t)

/-- Exact rational value of a JSON number literal (assumed valid).
`float64` decoding is modelled exactly over `ℚ`; the value is built with
`mkRat` over machine-friendly `Nat`/`Int` arithmetic so that it reduces
in the kernel. -/
def numVal (s : Str) : ℚ :=
  let neg := s.head? = some '-'
  let s1 := if neg then s.tail else s
  let ip := s1.takeWhile Char.isDigit
  let r1 := s1.dropWhile Char.isDigit
  let fr := match r1 with
    | '.' :: t => t.takeWhile Char.isDigit
    | _ => []
  let r2 := match r1 with
    | '.' :: t => t.dropWhile Char.isDigit
    | _ => r1
  let e : Int := match r2 with
    | _ :: c2 :: t2 =>
      if c2 = '-' then -(digitsVal t2 : Int)
      else if c2 = '+' then (digitsVal t2 : Int)
      else (digitsVal (c2 :: t2) : Int)
    | _ => 0
  let mantissa : Int := (digitsVal ip * 10 ^ fr.length + digitsVal fr : Nat)
  let signed : Int := if neg then -mantissa else mantissa
  if 0 ≤ e then mkRat (signed * 10 ^ e.toNat) (10 ^ fr.length)
  else mkRat signed (10 ^ fr.length * 10 ^ (-e).toNat)

/-- Decoding a JSON number literal into a `float64`, value modelled in ℚ. -/
def numLitToRat (s : Str) : Option ℚ :=
  if jsonNumberValid s then some (numVal s) else none

/-- JSON tokens. String tokens carry their unescaped content, number
tokens the raw literal text (as `json.Number` does). -/
inductive JTok where
  | lbrace | rbrace | lbrack | rbrack | colon | comma
  | str (content : Str)
  | num (raw : Str)
  | nullT | trueT | falseT
deriving DecidableEq

/-- The literal text of a token (string contents are rendered bare; the
rendering is only applied to escape-free contents). -/
def tokText : JTok → Str
  | .lbrace => ['\x7b']
  | .rbrace => ['\x7d']
  | .lbrack => ['[']
  | .rbrack => [']']
  | .colon => [':']
  | .comma => [',']
  | .str s => '"' :: (s ++ ['"'])
  | .num r => r
  | .nullT => chars "null"
  | .trueT => chars "true"
  | .falseT => chars "false"

/-- Single-character JSON escapes. -/
def escChar (c : Char) : Option Char :=
  if c = '"' then some '"'
  else if c = '\\' then some '\\'
  else if c = '/' then some '/'
  else if c = 'b' then some '\x08'
  else if c = 'f' then some '\x0c'
  else if c = 'n' then some '\n'
  else if c = 'r' then some '\r'
  else if c = 't' then some '\t'
  else none

/-- Hexadecimal digit value. -/
def hexVal (c : Char) : Option Nat :=
  if c.isDigit then some (c.toNat - 48)
  else if 'a' ≤ c && c ≤ 'f' then some (c.toNat - 87)
  else if 'A' ≤ c && c ≤ 'F' then some (c.toNat - 55)
  else none

/-- Decode one escape sequence (the backslash already consumed):
the resulting character and the remaining input.  Pairing of `\u`
surrogates is not modelled. -/
def readEsc : Str → Option (Char × Str)
  | [] => none
  | e :: rest =>
    match escChar e with
    | some d => some (d, rest)
    | none =>
      if e = 'u' then
        match rest with
        | a :: b :: c :: d :: rest2 =>
          match hexVal a, hexVal b, hexVal c, hexVal d with
          | some ha, some hb, some hc, some hd =>
            some (Char.ofNat (((ha * 16 + hb) * 16 + hc) * 16 + hd), rest2)
          | _, _, _, _ => none
        | _ => none
      else none

theorem readEsc_length {s : Str} {d : Char} {r : Str} (h : readEsc s = some (d, r)) :
    r.length < s.length := by
  cases s with
  | nil => simp [readEsc] at h
  | cons e rest =>
    cases hesc : escChar e with
    | some d2 =>
      simp [readEsc, hesc] at h
      simp [← h.2]
    | none =>
      by_cases hu : e = 'u'
      · subst hu
        cases rest with
        | nil => simp [readEsc, escChar] at h
        | cons a r1 =>
          cases r1 with
          | nil => simp [readEsc, escChar] at h
          | cons b r2 =>
            cases r2 with
            | nil => simp [readEsc, escChar] at h
            | cons c r3 =>
              cases r3 with
              | nil => simp [readEsc, escChar] at h
              | cons d2 rest2 =>
                cases hha : hexVal a <;> cases hhb : hexVal b <;>
                  cases hhc : hexVal c <;> cases hhd : hexVal d2 <;>
                  simp [readEsc, escChar, hha, hhb, hhc, hhd] at h <;>
                  simp [← h.2] <;> omega
      · simp [readEsc, hesc, hu] at h

/-- Read the body of a string literal (the opening quote already
consumed), fuel-indexed so that the kernel can evaluate it: returns the
unescaped content and the characters after the closing quote.  Unescaped
control characters are rejected, as Go's scanner rejects them. -/
def readStrF : Nat → Str → Option (Str × Str)
  | 0, _ => none
  | _ + 1, [] => none
  | f + 1, c :: rest =>
    if c = '"' then some ([], rest)
    else if c = '\\' then
      match readEsc rest with
      | some (d, rest2) => (readStrF f rest2).map (fun p => (d :: p.1, p.2))
      | none => none
    else if c.toNat < 32 then none
    else (readStrF f rest).map (fun p => (c :: p.1, p.2))

/-- `readStrF` with always-sufficient fuel. -/
def readStr (s : Str) : Option (Str × Str) := readStrF (s.length + 1) s

theorem readStrF_length : ∀ (f : Nat) (s c r : Str), readStrF f s = some (c, r) →
    r.length ≤ s.length := by
  intro f
  induction f with
  | zero => intro s c r h; simp [readStrF] at h
  | succ f ih =>
    intro s c r h
    cases s with
    | nil => simp [readStrF] at h
    | cons c0 rest =>
      rw [readStrF] at h
      split at h
      · simp_all
      · split at h
        · split at h
          · next d rest2 heq =>
            cases hrec : readStrF f rest2 with
            | none => simp [hrec] at h
            | some p =>
              have hlt := readEsc_length heq
              simp [hrec] at h
              obtain ⟨-, h2⟩ := h
              subst h2
              have := ih rest2 p.1 p.2 hrec
              simp only [List.length_cons]
              omega
          · simp at h
        · split at h
          · simp at h
          · cases hrec : readStrF f rest with
            | none => simp [hrec] at h
            | some p =>
              have := ih rest p.1 p.2 hrec
              simp [hrec] at h
              obtain ⟨-, h2⟩ := h
              subst h2
              simp only [List.length_cons]
              omega

theorem readStr_length {s c r : Str} (h : readStr s = some (c, r)) : r.length ≤ s.length :=
  readStrF_length (s.length + 1) s c r h

theorem readStrF_irrel : ∀ (f : Nat) (s : Str), s.length + 1 ≤ f →
    readStrF f s = readStr s := by
  intro f
  induction f using Nat.strong_induction_on with
  | _ f ih =>
    intro s hf
    cases f with
    | zero => omega
    | succ f =>
      cases s with
      | nil => simp [readStrF, readStr]
      | cons c0 rest =>
        simp only [List.length_cons] at hf
        rw [readStr]
        simp only [List.length_cons]
        rw [readStrF, readStrF]
        by_cases h1 : c0 = '"'
        · simp [h1]
        · simp only [h1, if_false]
          by_cases h2 : c0 = '\\'
          · simp only [h2, if_true]
            cases hesc : readEsc rest with
            | none => rfl
            | some p =>
              obtain ⟨d, rest2⟩ := p
              have hlt := readEsc_length (d := d) (r := rest2) (by rw [hesc])
              have e1 : readStrF f rest2 = readStr rest2 := ih f (by omega) rest2 (by omega)
              have e2 : readStrF (rest.length + 1) rest2 = readStr rest2 :=
                ih (rest.length + 1) (by omega) rest2 (by omega)
              simp [e1, e2]
          · simp only [h2, if_false]
            by_cases h3 : c0.toNat < 32
            · simp [h3]
            · simp only [h3, if_false]
              have e1 : readStrF f rest = readStr rest := ih f (by omega) rest (by omega)
              have e2 : readStrF (rest.length + 1) rest = readStr rest :=
                ih (rest.length + 1) (by omega) rest (by omega)
              simp [e1, e2]

theorem dropWhile_len_le (p : Char → Bool) (l : Str) : (l.dropWhile p).length ≤ l.length := by
  induction l with
  | nil => simp
  | cons a t ih =>
    by_cases hp : p a
    · simp [List.dropWhile_cons, hp]
      omega
    · simp [List.dropWhile_cons, hp]

/-- The JSON tokenizer, fuel-indexed: skips JSON whitespace between
tokens, reads string literals via `readStr`, collects maximal
number-character runs and validates them against the number grammar, and
matches the three keyword literals. -/
def tokenizeF : Nat → Str → Option (List JTok)
  | 0, _ => none
  | _ + 1, [] => some []
  | f + 1, c :: rest =>
    if isJsonWs c then tokenizeF f rest
    else if c = '{' then (tokenizeF f rest).map (.lbrace :: ·)
    else if c = '}' then (tokenizeF f rest).map (.rbrace :: ·)
    else if c = '[' then (tokenizeF f rest).map (.lbrack :: ·)
    else if c = ']' then (tokenizeF f rest).map (.rbrack :: ·)
    else if c = ':' then (tokenizeF f rest).map (.colon :: ·)
    else if c = ',' then (tokenizeF f rest).map (.comma :: ·)
    else if c = '"' then
      match readStr rest with
      | some (content, r) => (tokenizeF f r).map (.str content :: ·)
      | none => none
    else if isNumChar c then
      if jsonNumberValid (c :: rest.takeWhile isNumChar) then
        (tokenizeF f (rest.dropWhile isNumChar)).map (.num (c :: rest.takeWhile isNumChar) :: ·)
      else none
    else if c = 'n' then
      if (chars "ull").isPrefixOf rest then (tokenizeF f (rest.drop 3)).map (.nullT :: ·)
      else none
    else if c = 't' then
      if (chars "rue").isPrefixOf rest then (tokenizeF f (rest.drop 3)).map (.trueT :: ·)
      else none
    else if c = 'f' then
      if (chars "alse").isPrefixOf rest then (tokenizeF f (rest.drop 4)).map (.falseT :: ·)
      else none
    else none

/-- `tokenizeF` with always-sufficient fuel. -/
def tokenize (s : Str) : Option (List JTok) := tokenizeF (s.length + 1) s

theorem tokenizeF_irrel : ∀ (f : Nat) (s : Str), s.length + 1 ≤ f →
    tokenizeF f s = tokenize s := by
  intro f
  induction f using Nat.strong_induction_on with
  | _ f ih =>
    intro s hf
    cases f with
    | zero => omega
    | succ f =>
      cases s with
      | nil => simp [tokenizeF, tokenize]
      | cons c0 rest =>
        simp only [List.length_cons] at hf
        have step : ∀ (r : Str), r.length ≤ rest.length →
            tokenizeF f r = tokenizeF (rest.length + 1) r := by
          intro r hr
          rw [ih f (by omega) r (by omega), ih (rest.length + 1) (by omega) r (by omega)]
        rw [tokenize]
        simp only [List.length_cons]
        rw [tokenizeF, tokenizeF]
        by_cases h1 : isJsonWs c0
        · simp only [h1, if_true]
          exact step rest le_rfl
        · simp only [h1, if_false]
          by_cases h2 : c0 = '{'
          · simp [h2, step rest le_rfl]
          · simp only [h2, if_false]
            by_cases h3 : c0 = '}'
            · simp [h3, step rest le_rfl]
            · simp only [h3, if_false]
              by_cases h4 : c0 = '['
              · simp [h4, step rest le_rfl]
              · simp only [h4, if_false]
                by_cases h5 : c0 = ']'
                · simp [h5, step rest le_rfl]
                · simp only [h5, if_false]
                  by_cases h6 : c0 = ':'
                  · simp [h6, step rest le_rfl]
                  · simp only [h6, if_false]
                    by_cases h7 : c0 = ','
                    · simp [h7, step rest le_rfl]
                    · simp only [h7, if_false]
                      by_cases h8 : c0 = '"'
                      · simp only [h8, if_true]
                        cases hrs : readStr rest with
                        | none => simp
                        | some p =>
                          obtain ⟨content, r⟩ := p
                          have hlen := readStr_length (s := rest) (c := content) (r := r)
                            (by rw [hrs])
                          simp [step r hlen]
                      · simp only [h8, if_false]
                        by_cases h9 : isNumChar c0
                        · simp only [h9, if_true]
                          by_cases hv : jsonNumberValid (c0 :: rest.takeWhile isNumChar)
                          · simp [hv, step (rest.dropWhile isNumChar) (dropWhile_len_le _ _)]
                          · simp [hv]
                        · simp only [h9, if_false]
                          by_cases h10 : c0 = 'n'
                          · simp only [h10, if_true]
                            by_cases hv : (chars "ull").isPrefixOf rest
                            · simp [hv, step (rest.drop 3) (by simp)]
                            · simp [hv]
                          · simp only [h10, if_false]
                            by_cases h11 : c0 = 't'
                            · simp only [h11, if_true]
                              by_cases hv : (chars "rue").isPrefixOf rest
                              · simp [hv, step (rest.drop 3) (by simp)]
                              · simp [hv]
                            · simp only [h11, if_false]
                              by_cases h12 : c0 = 'f'
                              · simp only [h12, if_true]
                                by_cases hv : (chars "alse").isPrefixOf rest
                                · simp [hv, step (rest.drop 4) (by simp)]
                                · simp [hv]
                              · simp [h12]

/-! ## JSON structural layer -/

/-- JSON values.  Objects keep their fields in order (Go decodes fields
sequentially, later duplicates overwriting earlier ones). -/
inductive JVal where
  | jnull
  | jbool (b : Bool)
  | jnum (raw : Str)
  | jstr (s : Str)
  | jarr (xs : List JVal)
  | jobj (fields : List (Str × JVal))

mutual

/-- Parse one JSON value from a token stream (fuel-indexed). -/
def parseVal : Nat → List JTok → Option (JVal × List JTok)
  | 0, _ => none
  | _ + 1, [] => none
  | f + 1, t :: ts =>
    match t with
    | .nullT => some (.jnull, ts)
    | .trueT => some (.jbool true, ts)
    | .falseT => some (.jbool false, ts)
    | .num r => some (.jnum r, ts)
    | .str s => some (.jstr s, ts)
    | .lbrack =>
      match ts with
      | .rbrack :: ts2 => some (.jarr [], ts2)
      | _ => parseArr f ts []
    | .lbrace =>
      match ts with
      | .rbrace :: ts2 => some (.jobj [], ts2)
      | _ => parseObj f ts []
    | _ => none

/-- Parse the elements of a nonempty array, accumulating in order. -/
def parseArr : Nat → List JTok → List JVal → Option (JVal × List JTok)
  | 0, _, _ => none
  | f + 1, ts, acc =>
    match parseVal f ts with
    | none => none
    | some (v, rest) =>
      match rest with
      | .comma :: rest2 => parseArr f rest2 (acc ++ [v])
      | .rbrack :: rest2 => some (.jarr (acc ++ [v]), rest2)
      | _ => none

/-- Parse the members of a nonempty object, accumulating in order. -/
def parseObj : Nat → List JTok → List (Str × JVal) → Option (JVal × List JTok)
  | 0, _, _ => none
  | f + 1, .str k :: .colon :: rest, acc =>
    match parseVal f rest with
    | none => none
    | some (v, rest2) =>
      match rest2 with
      | .comma :: rest3 => parseObj f rest3 (acc ++ [(k, v)])
      | .rbrace :: rest3 => some (.jobj (acc ++ [(k, v)]), rest3)
      | _ => none
  | _ + 1, _, _ => none

end

/-- Parse a complete token stream as a single JSON value with nothing
after it (Go's `json.Unmarshal` rejects trailing data). -/
def parseJson (ts : List JTok) : Option JVal :=
  match parseVal (2 * ts.length + 2) ts with
  | some (v, []) => some v
  | _ => none

/-- A Go slice: `none` is the nil slice, `some` a (possibly empty)
allocated slice.  `fetchMetadata` distinguishes the two. -/
abbrev GoSlice (α : Type) := Option (List α)

/-- `MediaData` from `main.go`: `full_title` (string),
`parent_media_index` and `media_index` (`json.Number`, kept as raw text),
`watched_status` (`float64`, modelled in ℚ), `percent_complete` (`int`). -/
structure MediaData where
  FullTitle : Str
  ParentMediaIndex : Str
  MediaIndex : Str
  WatchedStatus : ℚ
  PercentComplete : Int
deriving DecidableEq

/-- The zero value of `MediaData`. -/
def zeroMediaData : MediaData := ⟨[], [], [], 0, 0⟩

/-- Decode a JSON value into a Go `string` field (null leaves the current
value unchanged; a wrong kind is an unmarshal error). -/
def decodeStrField (v : JVal) (cur : Str) : Option Str :=
  match v with
  | .jstr s => some s
  | .jnull => some cur
  | _ => none

/-- Decode a JSON value into a `json.Number` field: a number keeps its raw
literal, a string is accepted when it satisfies the number grammar (Go's
`isValidNumber` check), null leaves the current value. -/
def decodeNumberField (v : JVal) (cur : Str) : Option Str :=
  match v with
  | .jnum r => some r
  | .jstr s => if jsonNumberValid s then some s else none
  | .jnull => some cur
  | _ => none

/-- Decode a JSON value into a `float64` field (modelled in ℚ). -/
def decodeFloatField (v : JVal) (cur : ℚ) : Option ℚ :=
  match v with
  | .jnum r => numLitToRat r
  | .jnull => some cur
  | _ => none

/-- Decode a JSON value into a Go `int` field: Go runs
`strconv.ParseInt` on the raw literal, so fractions and exponents are
rejected and the value must fit in 64 bits. -/
def decodeIntField (v : JVal) (cur : Int) : Option Int :=
  match v with
  | .jnum r => if goAtoiOk r then some (atoiVal r) else none
  | .jnull => some cur
  | _ => none

/-- Apply one object member to a `MediaData` under construction.  Unknown
field names are skipped.  (Go's case-insensitive field-name fallback is
not modelled; all claims use the exact lower-case names.) -/
def applyMediaField (cur : MediaData) (k : Str) (v : JVal) : Option MediaData :=
  if k = chars "full_title" then
    (decodeStrField v cur.FullTitle).map (fun x => { cur with FullTitle := x })
  else if k = chars "parent_media_index" then
    (decodeNumberField v cur.ParentMediaIndex).map (fun x => { cur with ParentMediaIndex := x })
  else if k = chars "media_index" then
    (decodeNumberField v cur.MediaIndex).map (fun x => { cur with MediaIndex := x })
  else if k = chars "watched_status" then
    (decodeFloatField v cur.WatchedStatus).map (fun x => { cur with WatchedStatus := x })
  else if k = chars "percent_complete" then
    (decodeIntField v cur.PercentComplete).map (fun x => { cur with PercentComplete := x })
  else some cur

/-- Decode one element of the `data` array into a `MediaData` (null leaves
the zero value, as Go leaves the slice element zeroed). -/
def decodeMediaData (v : JVal) : Option MediaData :=
  match v with
  | .jnull => some zeroMediaData
  | .jobj fields => fields.foldlM (fun cur kv => applyMediaField cur kv.1 kv.2) zeroMediaData
  | _ => none

/-- Decode a JSON value into the `[]MediaData` field: null leaves the
current slice, an array allocates a fresh slice. -/
def decodeDataArr (v : JVal) (cur : GoSlice MediaData) : Option (GoSlice MediaData) :=
  match v with
  | .jnull => some cur
  | .jarr xs => (xs.mapM decodeMediaData).map some
  | _ => none

/-- Decode the innermost envelope struct (the one holding `data :
[]MediaData`). -/
def decodeEnvelope2 (v : JVal) (cur : GoSlice MediaData) : Option (GoSlice MediaData) :=
  match v with
  | .jnull => some cur
  | .jobj fields =>
    fields.foldlM
      (fun acc kv => if kv.1 = chars "data" then decodeDataArr kv.2 acc else some acc) cur
  | _ => none

/-- Decode the middle envelope struct (`data : { data : []MediaData }`). -/
def decodeEnvelope1 (v : JVal) (cur : GoSlice MediaData) : Option (GoSlice MediaData) :=
  match v with
  | .jnull => some cur
  | .jobj fields =>
    fields.foldlM
      (fun acc kv => if kv.1 = chars "data" then decodeEnvelope2 kv.2 acc else some acc) cur
  | _ => none

/-- Decode the `TautulliResponse` envelope
(`response : { data : { data : []MediaData } }`), extracting the slice. -/
def decodeTautulli (v : JVal) : Option (GoSlice MediaData) :=
  match v with
  | .jnull => some none
  | .jobj fields =>
    fields.foldlM
      (fun acc kv => if kv.1 = chars "response" then decodeEnvelope1 kv.2 acc else some acc) none
  | _ => none

/-- `json.Unmarshal(body, &tautulliResp)` followed by reading
`tautulliResp.Response.Data.Data`: tokenize, parse a single value, decode
structurally.  `none` is an unmarshal error. -/
def goUnmarshalTautulli (s : Str) : Option (GoSlice MediaData) :=
  match tokenize s with
  | none => none
  | some ts =>
    match parseJson ts with
    | none => none
    | some v => decodeTautulli v

/-! ## The tolerant JSON normalizer

`fetchMetadata` runs four `regexp.ReplaceAllString` calls over the raw
body, each with a pattern of the shape `"NAME"\s*:\s*""` and a
whitespace-free replacement.  A match attempt at the head of the input and
the leftmost-non-overlapping replacement scan are modelled directly. -/

/-- Try to match the Go regex `"NAME"\s*:\s*""` at the head of `s`;
on success return the input following the match. -/
def matchEmptyField (name : Str) (s : Str) : Option Str :=
  if ('"' :: (name ++ ['"'])).isPrefixOf s then
    if ((s.drop (name.length + 2)).dropWhile isGoWs).head? = some ':' then
      if ('"' :: ['"']).isPrefixOf
          (((s.drop (name.length + 2)).dropWhile isGoWs).tail.dropWhile isGoWs) then
        some ((((s.drop (name.length + 2)).dropWhile isGoWs).tail.dropWhile isGoWs).drop 2)
      else none
    else none
  else none

theorem matchEmptyField_length {name s r : Str} (h : matchEmptyField name s = some r) :
    r.length < s.length := by
  rw [matchEmptyField] at h
  split at h
  · next hp =>
    have hlen : name.length + 2 ≤ s.length := by
      have := (List.isPrefixOf_iff_prefix.mp hp).length_le
      simpa using this
    have h1 : ((s.drop (name.length + 2)).dropWhile isGoWs).length ≤
        s.length - (name.length + 2) := by
      have := dropWhile_len_le isGoWs (s.drop (name.length + 2))
      simpa [List.length_drop] using this
    split at h
    · next hhead =>
      have h2 : ((s.drop (name.length + 2)).dropWhile isGoWs).tail.length + 1 =
          ((s.drop (name.length + 2)).dropWhile isGoWs).length := by
        cases he : (s.drop (name.length + 2)).dropWhile isGoWs with
        | nil => rw [he] at hhead; simp at hhead
        | cons a t => simp
      have h3 := dropWhile_len_le isGoWs ((s.drop (name.length + 2)).dropWhile isGoWs).tail
      split at h
      · simp only [Option.some.injEq] at h
        subst h
        simp only [List.length_drop]
        omega
      · exact absurd h (by simp)
    · exact absurd h (by simp)
  · exact absurd h (by simp)

/-- `regexp.ReplaceAllString` for the pattern `"NAME"\s*:\s*""`,
fuel-indexed: scan left to right, replace each non-overlapping leftmost
match by `repl`, and continue after the matched text. -/
def replaceEmptyFieldF (name repl : Str) : Nat → Str → Str
  | 0, s => s
  | _ + 1, [] => []
  | f + 1, c :: rest =>
    match matchEmptyField name (c :: rest) with
    | some after => repl ++ replaceEmptyFieldF name repl f after
    | none => c :: replaceEmptyFieldF name repl f rest

/-- `replaceEmptyFieldF` with always-sufficient fuel. -/
def replaceEmptyField (name repl : Str) (s : Str) : Str :=
  replaceEmptyFieldF name repl (s.length + 1) s

theorem replaceEmptyFieldF_irrel (name repl : Str) : ∀ (f : Nat) (s : Str),
    s.length + 1 ≤ f → replaceEmptyFieldF name repl f s = replaceEmptyField name repl s := by
  intro f
  induction f using Nat.strong_induction_on with
  | _ f ih =>
    intro s hf
    cases f with
    | zero => omega
    | succ f =>
      cases s with
      | nil => simp [replaceEmptyFieldF, replaceEmptyField]
      | cons c0 rest =>
        simp only [List.length_cons] at hf
        rw [replaceEmptyField]
        simp only [List.length_cons]
        rw [replaceEmptyFieldF, replaceEmptyFieldF]
        cases hm : matchEmptyField name (c0 :: rest) with
        | none =>
          have e1 : replaceEmptyFieldF name repl f rest = replaceEmptyField name repl rest :=
            ih f (by omega) rest (by omega)
          have e2 : replaceEmptyFieldF name repl (rest.length + 1) rest =
              replaceEmptyField name repl rest :=
            ih (rest.length + 1) (by omega) rest (by omega)
          simp [e1, e2]
        | some after =>
          have hlt : after.length < rest.length + 1 := by
            have := matchEmptyField_length hm
            simpa using this
          have e1 : replaceEmptyFieldF name repl f after = replaceEmptyField name repl after :=
            ih f (by omega) after (by omega)
          have e2 : replaceEmptyFieldF name repl (rest.length + 1) after =
              replaceEmptyField name repl after :=
            ih (rest.length + 1) (by omega) after (by omega)
          simp [e1, e2]

/-- The replacement text used for the two `json.Number` fields carries a
quoted zero, the one for the numeric fields an unquoted zero. -/
def zeroReplacement (name : Str) (z : JTok) : Str :=
  '"' :: (name ++ ('"' :: (':' :: tokText z)))

/-- The four textual repairs of `fetchMetadata`, in program order. -/
def normalizeBody (s : Str) : Str :=
  replaceEmptyField (chars "percent_complete")
      (zeroReplacement (chars "percent_complete") (.num (chars "0")))
    (replaceEmptyField (chars "watched_status")
        (zeroReplacement (chars "watched_status") (.num (chars "0")))
      (replaceEmptyField (chars "media_index")
          (zeroReplacement (chars "media_index") (.str (chars "0")))
        (replaceEmptyField (chars "parent_media_index")
            (zeroReplacement (chars "parent_media_index") (.str (chars "0")))
          s)))

/-! ## The history client (`fetchMetadata`) and the two handlers

Network and filesystem effects are modelled as oracle values passed in:
`HttpOutcome` describes what the single outbound `http.Get` (and the
subsequent body read) would do, and `FsEnv` whether a record's directory
creation and file write succeed.  HTTP status text and log lines are not
modelled. -/

/-- Errors of `fetchMetadata`: a transport failure of the request or body
read, a non-`http.StatusOK` response (carrying the status code), or a body
that fails `json.Unmarshal` after normalization. -/
inductive FetchErr where
  | transportErr
  | statusErr (code : Nat)
  | decodeErr
deriving DecidableEq

/-- Behaviour of the one outbound HTTP request: either the transport
fails (connection or body read), or a response with a status code and a
fully read body arrives. -/
inductive HttpOutcome where
  | transportFail
  | response (status : Nat) (body : Str)

/-- Result of `fetchMetadata`: whether the outbound request was issued at
all, and the returned value — Go's `([]MediaData, error)` pair collapsed
to an `Except` (the program never sets both). -/
structure FetchResult where
  requested : Bool
  result : Except FetchErr (GoSlice MediaData)

/-- `fetchMetadata` from `main.go`: empty path or unextractable key return
the nil slice and nil error without a request; otherwise the request is
issued, a non-200 status or transport failure is an error, and the
normalized body is decoded, substituting a fresh empty slice when the
envelope carries a nil `data`. -/
def fetchMetadata (path : Str) (out : HttpOutcome) : FetchResult :=
  if path = [] then ⟨false, .ok none⟩
  else if extractKeyFromPath path = [] then ⟨false, .ok none⟩
  else
    match out with
    | .transportFail => ⟨true, .error .transportErr⟩
    | .response status body =>
      if status ≠ 200 then ⟨true, .error (.statusErr status)⟩
      else
        match goUnmarshalTautulli (normalizeBody body) with
        | none => ⟨true, .error .decodeErr⟩
        | some none => ⟨true, .ok (some [])⟩
        | some (some xs) => ⟨true, .ok (some xs)⟩

/-- Per-record filesystem behaviour: whether `os.MkdirAll` and
`os.WriteFile` succeed for this record. -/
structure FsEnv where
  mkdirOk : Bool
  writeOk : Bool
deriving DecidableEq

/-- Go's `%d` of an `int64` / `strconv.Itoa`: decimal digits with a
leading minus for negatives. -/
def intToStr (n : Int) : Str := (toString n).data

/-- The filename written for a Plex record:
`"<FullTitle> - S<season>E<episode>.json"`. -/
def plexFilename (title : Str) (season episode : Int) : Str :=
  title ++ (chars " - S" ++ (intToStr season ++ (chars "E" ++ (intToStr episode ++ chars ".json"))))

/-- What the Plex record loop does with one record. -/
inductive PlexAction where
  | wrote (filename : Str) (d : MediaData)
  | skip
deriving DecidableEq

/-- One iteration of the record loop in `handlePlexWebhook`: convert both
indices (`continue` on error), test `WatchedStatus >= 1.0`, create the
directory and write the file (failures logged, record skipped). -/
def processRecord (env : FsEnv) (d : MediaData) : PlexAction :=
  match goNumberInt64 d.ParentMediaIndex with
  | none => .skip
  | some parentMediaIndex =>
    match goNumberInt64 d.MediaIndex with
    | none => .skip
    | some mediaIndex =>
      if 1 ≤ d.WatchedStatus then
        if env.mkdirOk then
          if env.writeOk then
            .wrote (plexFilename d.FullTitle parentMediaIndex mediaIndex) d
          else .skip
        else .skip
      else .skip

/-- The record loop of `handlePlexWebhook`, collecting the successful
writes in order. -/
def runPlexLoop (l : List (MediaData × FsEnv)) : List (Str × MediaData) :=
  l.filterMap (fun p =>
    match processRecord p.2 p.1 with
    | .wrote f d => some (f, d)
    | .skip => none)

/-- The observable outcome of a handler: HTTP status plus files written. -/
structure HandlerOutcome where
  status : Nat
  writes : List (Str × MediaData)
deriving DecidableEq

/-- `handlePlexWebhook` from the point where a `media.stop` payload has
been parsed: an empty metadata key is acknowledged with 200, a fetch
error yields 500, an empty record list is acknowledged with 200, and the
record loop always ends in 200 whatever the per-record outcomes. -/
def handlePlexStop (key : Str) (out : HttpOutcome) (envs : List FsEnv) : HandlerOutcome :=
  if key = [] then ⟨200, []⟩
  else
    match (fetchMetadata key out).result with
    | .error _ => ⟨500, []⟩
    | .ok data =>
      let l := data.getD []
      if l.isEmpty then ⟨200, []⟩
      else ⟨200, runPlexLoop (l.zip envs)⟩

/-- `MediaStatus` of the Jellyfin webhook payload. -/
structure MediaStatus where
  PlaybackStatus : Str
  PositionTicks : Int
  IsPaused : Bool
  PlayedToCompletion : Bool
deriving DecidableEq

/-- `JellyfinWebhookPayload` from `main.go` (`Title` carries JSON name
`Name`). -/
structure JellyfinWebhookPayload where
  Event : Str
  ItemID : Str
  ItemType : Str
  MediaStatus : MediaStatus
  NotificationType : Str
  Title : Str
  SeriesName : Str
  SeasonNumber : Int
  EpisodeNumber : Int
deriving DecidableEq

/-- The single write (if any) performed by `handleJellyfinWebhook`. -/
structure JellyfinOutcome where
  status : Nat
  write : Option (Str × MediaData)
deriving DecidableEq

/-- `handleJellyfinWebhook` from the point where the JSON payload has been
parsed: non-stop events and incomplete playback are acknowledged with 200;
an `Episode` with a series name or a `Movie` is written (directory or
write failure aborts with 500); any other item type is acknowledged with
200 and no write. -/
def handleJellyfinStop (p : JellyfinWebhookPayload) (env : FsEnv) : JellyfinOutcome :=
  if p.Event ≠ chars "playback.stop" ∧ p.NotificationType ≠ chars "PlaybackStop" then
    ⟨200, none⟩
  else if !p.MediaStatus.PlayedToCompletion then ⟨200, none⟩
  else if p.ItemType = chars "Episode" ∧ p.SeriesName ≠ [] then
    let mediaData : MediaData :=
      ⟨p.SeriesName ++ (chars " - " ++ p.Title), intToStr p.SeasonNumber,
        intToStr p.EpisodeNumber, 1, 100⟩
    let filename :=
      p.SeriesName ++ (chars " - S" ++ (intToStr p.SeasonNumber ++
        (chars "E" ++ (intToStr p.EpisodeNumber ++ chars ".json"))))
    if !env.mkdirOk then ⟨500, none⟩
    else if !env.writeOk then ⟨500, none⟩
    else ⟨200, some (filename, mediaData)⟩
  else if p.ItemType = chars "Movie" then
    let mediaData : MediaData := ⟨p.Title, chars "0", chars "0", 1, 100⟩
    let filename := p.Title ++ chars ".json"
    if !env.mkdirOk then ⟨500, none⟩
    else if !env.writeOk then ⟨500, none⟩
    else ⟨200, some (filename, mediaData)⟩
  else ⟨200, none⟩

/-! ## The output directory -/

/-- The output directory as a map from filenames to the descriptor
payloads their files hold. -/
def FileSystem := Str → Option MediaData

/-- `os.WriteFile`: a direct overwrite of any same-named file. -/
def fsWrite (fs : FileSystem) (filename : Str) (d : MediaData) : FileSystem :=
  fun f => if f = filename then some d else fs f

/-- Apply a handler's writes to the output directory in order. -/
def applyWrites (fs : FileSystem) (ws : List (Str × MediaData)) : FileSystem :=
  ws.foldl (fun acc w => fsWrite acc w.1 w.2) fs

instance {e a : Type} [DecidableEq e] [DecidableEq a] : DecidableEq (Except e a) := fun x y =>
  match x, y with
  | .ok u, .ok v => if h : u = v then .isTrue (by rw [h]) else .isFalse (by simp [h])
  | .error u, .error v => if h : u = v then .isTrue (by rw [h]) else .isFalse (by simp [h])
  | .ok _, .error _ => .isFalse (by simp)
  | .error _, .ok _ => .isFalse (by simp)

/-! ## Supporting lemmas for the claims -/

theorem isDigit_ne_minus {c : Char} (h : c.isDigit = true) : c ≠ '-' := by
  intro he
  subst he
  simp [Char.isDigit] at h

theorem isDigit_ne_plus {c : Char} (h : c.isDigit = true) : c ≠ '+' := by
  intro he
  subst he
  simp [Char.isDigit] at h

theorem goAtoiOk_digits {s : Str} (h1 : allDigits s = true) (h2 : s ≠ [])
    (h3 : digitsVal s ≤ 2 ^ 63 - 1) : goAtoiOk s = true := by
  cases s with
  | nil => exact absurd rfl h2
  | cons c rest =>
    have hc : c.isDigit = true := by
      have := List.all_eq_true.mp h1 c (by simp)
      exact this
    rw [goAtoiOk]
    simp only [isDigit_ne_minus hc, isDigit_ne_plus hc, if_false]
    simp only [h1, Bool.true_and, decide_eq_true_eq]
    simpa using h3

theorem atoiVal_digits {s : Str} (h1 : allDigits s = true) (h2 : s ≠ []) :
    atoiVal s = (digitsVal s : Int) := by
  cases s with
  | nil => exact absurd rfl h2
  | cons c rest =>
    have hc : c.isDigit = true := by
      have := List.all_eq_true.mp h1 c (by simp)
      exact this
    rw [atoiVal]
    simp [isDigit_ne_minus hc, isDigit_ne_plus hc]

/-! ## Claims -/

/-- **C10.**  The numeric check `extractKeyFromPath` applies to a
candidate key segment is `strconv.Atoi` success (a machine-sized signed
integer), not "consists entirely of decimal digits": a path whose
trailing segment is `-123` (a sign, then digits) yields the key `-123`,
while a trailing segment of twenty digits — all decimal digits, but
beyond the signed 64-bit range — yields no key at all. -/
theorem c10_atoi_check :
    extractKeyFromPath (chars "/foo/-123") = chars "-123" ∧
    chars "-123" ≠ [] ∧
    goAtoiOk (chars "-123") = true ∧
    allDigits (chars "99999999999999999999") = true ∧
    goAtoiOk (chars "99999999999999999999") = false ∧
    extractKeyFromPath (chars "/library/metadata/99999999999999999999") = [] := by
  refine ⟨by decide, by decide, by decide, by decide, by decide, by decide⟩

/-- **C8.**  Descriptor writing is idempotent over the output directory:
writing the descriptor file for the same title/season/episode twice
overwrites the same file, and the directory after the second write is
exactly what a single write with the second payload produces. -/
theorem c8_write_idempotent (fs : FileSystem) (title : Str) (season episode : Int)
    (d1 d2 : MediaData) :
    applyWrites fs
        [(plexFilename title season episode, d1), (plexFilename title season episode, d2)] =
      applyWrites fs [(plexFilename title season episode, d2)] := by
  funext f
  simp only [applyWrites, List.foldl, fsWrite]
  by_cases h : f = plexFilename title season episode <;> simp [h]

/-- **C9.**  For an empty resource path, and for any path from which no
key can be extracted, `fetchMetadata` returns the nil slice and nil error
without issuing the outbound request, and the Plex handler treats the
case exactly like "no history found": status 200, no file written. -/
theorem c9_no_key_no_request (path : Str) (out : HttpOutcome) (envs : List FsEnv)
    (h : path = [] ∨ extractKeyFromPath path = []) :
    fetchMetadata path out = ⟨false, .ok none⟩ ∧
    handlePlexStop path out envs = ⟨200, []⟩ := by
  by_cases hp : path = []
  · subst hp
    refine ⟨by simp [fetchMetadata], by simp [handlePlexStop]⟩
  · have he : extractKeyFromPath path = [] := h.resolve_left hp
    refine ⟨by simp [fetchMetadata, hp, he], ?_⟩
    rw [handlePlexStop]
    simp [hp, fetchMetadata, he]

/-- Witness for C9 at the concrete unkeyed path `/some/other/path`. -/
theorem c9_no_key_no_request_witness :
    fetchMetadata (chars "/some/other/path") .transportFail = ⟨false, .ok none⟩ ∧
    handlePlexStop (chars "/some/other/path") .transportFail [] = ⟨200, []⟩ :=
  c9_no_key_no_request (chars "/some/other/path") .transportFail []
    (Or.inr (by decide))

/-- **C5.**  A Plex record whose index conversions and filesystem
operations succeed is persisted exactly when `watched_status ≥ 1.0`
(so `1.0` and anything larger is persisted, `0.999` is not); and a
Jellyfin event whose `PlayedToCompletion` flag is false produces no file
regardless of its other fields. -/
theorem c5_completion_classifier :
    (∀ (d : MediaData) (env : FsEnv) (p m : Int),
      goNumberInt64 d.ParentMediaIndex = some p →
      goNumberInt64 d.MediaIndex = some m →
      env.mkdirOk = true → env.writeOk = true →
      (processRecord env d ≠ .skip ↔ 1 ≤ d.WatchedStatus)) ∧
    (∀ (jp : JellyfinWebhookPayload) (env : FsEnv),
      jp.MediaStatus.PlayedToCompletion = false →
      handleJellyfinStop jp env = ⟨200, none⟩) := by
  constructor
  · intro d env p m hp hm hmk hw
    rw [processRecord, hp, hm]
    by_cases hws : 1 ≤ d.WatchedStatus
    · simp [hws, hmk, hw]
    · simp [hws]
  · intro jp env hc
    rw [handleJellyfinStop]
    by_cases hev : jp.Event ≠ chars "playback.stop" ∧ jp.NotificationType ≠ chars "PlaybackStop"
    · simp [hev]
    · simp [hev, hc]

/-- Witness for C5: a record at `watched_status = 0.999` is not
persisted, one at `1.0` is, and an incomplete Jellyfin event writes
nothing. -/
theorem c5_completion_classifier_witness :
    (processRecord ⟨true, true⟩ ⟨chars "T", chars "1", chars "2", 999 / 1000, 98⟩ ≠ .skip ↔
      (1 : ℚ) ≤ 999 / 1000) ∧
    (processRecord ⟨true, true⟩ ⟨chars "T", chars "1", chars "2", 1, 98⟩ ≠ .skip ↔
      (1 : ℚ) ≤ 1) ∧
    handleJellyfinStop
        ⟨chars "playback.stop", chars "12", chars "Episode",
          ⟨chars "Stopped", 5, false, false⟩, chars "PlaybackStop",
          chars "B", chars "A", 1, 2⟩ ⟨true, true⟩ = ⟨200, none⟩ :=
  ⟨c5_completion_classifier.1 _ ⟨true, true⟩ 1 2 (by decide) (by decide) rfl rfl,
   c5_completion_classifier.1 _ ⟨true, true⟩ 1 2 (by decide) (by decide) rfl rfl,
   c5_completion_classifier.2 _ ⟨true, true⟩ rfl⟩

/-- **C6, counterexample.**  For a Jellyfin `Episode` with series name
`A` and episode title `B`, the persisted descriptor's full title is
`A - B`, but the written filename is `A - S1E2.json` — built from the
series name, not from the descriptor's full title as the claim's
`"<FullTitle> - S<season>E<episode>.json"` formula demands. -/
theorem c6_filename_counterexample :
    handleJellyfinStop
        ⟨chars "playback.stop", chars "12", chars "Episode",
          ⟨chars "Stopped", 5, false, true⟩, chars "PlaybackStop",
          chars "B", chars "A", 1, 2⟩ ⟨true, true⟩ =
      ⟨200, some (chars "A - S1E2.json", ⟨chars "A - B", chars "1", chars "2", 1, 100⟩)⟩ ∧
    chars "A - S1E2.json" ≠ plexFilename (chars "A - B") 1 2 := by
  refine ⟨by decide, by decide⟩

/-- **C6, amended.**  Filenames: a persisted Plex record is written to
`"<FullTitle> - S<season>E<episode>.json"` with the resolved integers and
no zero-padding; a Jellyfin `Episode` with a non-empty series name is
written to `"<SeriesName> - S<season>E<episode>.json"` (the series name,
not the descriptor's full title, which is `"<SeriesName> - <Title>"`); a
Jellyfin `Movie` is written to `"<Title>.json"` with no season/episode
suffix; any other Jellyfin item type writes no file. -/
theorem c6_filenames_amended :
    (∀ (d : MediaData) (env : FsEnv) (p m : Int),
      goNumberInt64 d.ParentMediaIndex = some p →
      goNumberInt64 d.MediaIndex = some m →
      1 ≤ d.WatchedStatus → env.mkdirOk = true → env.writeOk = true →
      processRecord env d = .wrote (plexFilename d.FullTitle p m) d) ∧
    (∀ (jp : JellyfinWebhookPayload) (env : FsEnv),
      jp.NotificationType = chars "PlaybackStop" →
      jp.MediaStatus.PlayedToCompletion = true →
      jp.ItemType = chars "Episode" → jp.SeriesName ≠ [] →
      env.mkdirOk = true → env.writeOk = true →
      handleJellyfinStop jp env =
        ⟨200, some (plexFilename jp.SeriesName jp.SeasonNumber jp.EpisodeNumber,
          ⟨jp.SeriesName ++ (chars " - " ++ jp.Title), intToStr jp.SeasonNumber,
            intToStr jp.EpisodeNumber, 1, 100⟩)⟩) ∧
    (∀ (jp : JellyfinWebhookPayload) (env : FsEnv),
      jp.NotificationType = chars "PlaybackStop" →
      jp.MediaStatus.PlayedToCompletion = true →
      jp.ItemType = chars "Movie" →
      env.mkdirOk = true → env.writeOk = true →
      handleJellyfinStop jp env =
        ⟨200, some (jp.Title ++ chars ".json", ⟨jp.Title, chars "0", chars "0", 1, 100⟩)⟩) ∧
    (∀ (jp : JellyfinWebhookPayload) (env : FsEnv),
      (jp.ItemType ≠ chars "Episode" ∨ jp.SeriesName = []) →
      jp.ItemType ≠ chars "Movie" →
      (handleJellyfinStop jp env).write = none) := by
  refine ⟨?_, ?_, ?_, ?_⟩
  · intro d env p m hp hm hws hmk hw
    rw [processRecord, hp, hm]
    simp [hws, hmk, hw]
  · intro jp env hn hc he hs hmk hw
    rw [handleJellyfinStop]
    have : ¬(jp.Event ≠ chars "playback.stop" ∧ jp.NotificationType ≠ chars "PlaybackStop") := by
      simp [hn]
    simp only [this, if_false]
    simp [hc, he, hs, hmk, hw, plexFilename]
  · intro jp env hn hc he hmk hw
    rw [handleJellyfinStop]
    have hne : ¬(jp.ItemType = chars "Episode" ∧ jp.SeriesName ≠ []) := by
      intro hx
      rw [he] at hx
      exact absurd hx.1 (by decide)
    have : ¬(jp.Event ≠ chars "playback.stop" ∧ jp.NotificationType ≠ chars "PlaybackStop") := by
      simp [hn]
    simp only [this, if_false]
    simp [hc, hne, he, hmk, hw]
    exact fun hx => absurd hx (by decide)
  · intro jp env he hm
    rw [handleJellyfinStop]
    have hne : ¬(jp.ItemType = chars "Episode" ∧ jp.SeriesName ≠ []) := by
      rcases he with h | h
      · intro hx
        exact absurd hx.1 h
      · intro hx
        exact absurd h hx.2
    by_cases h1 : jp.Event ≠ chars "playback.stop" ∧ jp.NotificationType ≠ chars "PlaybackStop"
    · simp [h1]
    · by_cases h2 : jp.MediaStatus.PlayedToCompletion
      · simp [h1, h2, hne, hm]
      · simp [h1, h2]

/-- Witness for C6 (amended): all four filename shapes at concrete
inputs. -/
theorem c6_filenames_amended_witness :
    processRecord ⟨true, true⟩ ⟨chars "T", chars "1", chars "2", 1, 98⟩ =
      .wrote (plexFilename (chars "T") 1 2) ⟨chars "T", chars "1", chars "2", 1, 98⟩ ∧
    handleJellyfinStop
        ⟨chars "playback.stop", chars "12", chars "Episode",
          ⟨chars "Stopped", 5, false, true⟩, chars "PlaybackStop",
          chars "B", chars "A", 1, 2⟩ ⟨true, true⟩ =
      ⟨200, some (plexFilename (chars "A") 1 2,
        ⟨chars "A" ++ (chars " - " ++ chars "B"), intToStr 1, intToStr 2, 1, 100⟩)⟩ ∧
    handleJellyfinStop
        ⟨chars "playback.stop", chars "12", chars "Movie",
          ⟨chars "Stopped", 5, false, true⟩, chars "PlaybackStop",
          chars "M", [], 0, 0⟩ ⟨true, true⟩ =
      ⟨200, some (chars "M" ++ chars ".json", ⟨chars "M", chars "0", chars "0", 1, 100⟩)⟩ ∧
    (handleJellyfinStop
        ⟨chars "playback.stop", chars "12", chars "Audio",
          ⟨chars "Stopped", 5, false, true⟩, chars "PlaybackStop",
          chars "M", [], 0, 0⟩ ⟨true, true⟩).write = none :=
  ⟨c6_filenames_amended.1 _ ⟨true, true⟩ 1 2 (by decide) (by decide) (by norm_num) rfl rfl,
   c6_filenames_amended.2.1 _ ⟨true, true⟩ rfl rfl rfl (by decide) rfl rfl,
   c6_filenames_amended.2.2.1 _ ⟨true, true⟩ rfl rfl rfl rfl rfl,
   c6_filenames_amended.2.2.2 _ ⟨true, true⟩ (Or.inl (by decide)) (by decide)⟩

/-- **C7, counterexample.**  A Jellyfin episode request whose file write
fails is answered with status 500, not 200: per-record failure tolerance
holds only in the Plex handler. -/
theorem c7_jellyfin_write_fail_counterexample :
    handleJellyfinStop
        ⟨chars "playback.stop", chars "12", chars "Episode",
          ⟨chars "Stopped", 5, false, true⟩, chars "PlaybackStop",
          chars "B", chars "A", 1, 2⟩ ⟨true, false⟩ = ⟨500, none⟩ ∧
    (500 : Nat) ≠ 200 := by
  refine ⟨by decide, by decide⟩

/-- **C7, amended.**  In the Plex handler a record whose index conversion,
directory creation or file write fails is skipped, the sibling records of
the same response are processed exactly as if the failing record were
absent, and the request is answered 200 whenever the fetch succeeded; in
the Jellyfin handler a directory-creation or write failure aborts the
request with 500. -/
theorem c7_per_record_errors_amended :
    (∀ (pre post : List (MediaData × FsEnv)) (d : MediaData) (env : FsEnv),
      processRecord env d = .skip →
      runPlexLoop (pre ++ (d, env) :: post) = runPlexLoop (pre ++ post)) ∧
    (∀ (d : MediaData) (env : FsEnv),
      goNumberInt64 d.ParentMediaIndex = none ∨ goNumberInt64 d.MediaIndex = none ∨
        env.mkdirOk = false ∨ env.writeOk = false →
      processRecord env d = .skip) ∧
    (∀ (key : Str) (out : HttpOutcome) (envs : List FsEnv),
      (∃ data, (fetchMetadata key out).result = .ok data) →
      (handlePlexStop key out envs).status = 200) ∧
    (∀ (jp : JellyfinWebhookPayload) (env : FsEnv),
      jp.NotificationType = chars "PlaybackStop" →
      jp.MediaStatus.PlayedToCompletion = true →
      ((jp.ItemType = chars "Episode" ∧ jp.SeriesName ≠ []) ∨ jp.ItemType = chars "Movie") →
      env.mkdirOk = false ∨ env.writeOk = false →
      handleJellyfinStop jp env = ⟨500, none⟩) := by
  refine ⟨?_, ?_, ?_, ?_⟩
  · intro pre post d env h
    simp [runPlexLoop, List.filterMap_append, h]
  · intro d env h
    rw [processRecord]
    rcases h with h | h | h | h
    · simp [h]
    · cases hp : goNumberInt64 d.ParentMediaIndex <;> simp [h]
    · cases hp : goNumberInt64 d.ParentMediaIndex with
      | none => simp
      | some p =>
        cases hm : goNumberInt64 d.MediaIndex with
        | none => simp
        | some m => simp [h]
    · cases hp : goNumberInt64 d.ParentMediaIndex with
      | none => simp
      | some p =>
        cases hm : goNumberInt64 d.MediaIndex with
        | none => simp
        | some m =>
          by_cases hws : 1 ≤ d.WatchedStatus <;> simp [h, hws]
  · intro key out envs h
    obtain ⟨data, hd⟩ := h
    rw [handlePlexStop]
    by_cases hk : key = []
    · simp [hk]
    · simp only [hk, if_false, hd]
      by_cases he : (data.getD []).isEmpty <;> simp [he]
  · intro jp env hn hc hbr hfail
    rw [handleJellyfinStop]
    have h1 : ¬(jp.Event ≠ chars "playback.stop" ∧
        jp.NotificationType ≠ chars "PlaybackStop") := by
      simp [hn]
    simp only [h1, if_false]
    rcases hbr with ⟨he, hs⟩ | hm
    · rcases hfail with hf | hf
      · simp [hc, he, hs, hf]
      · by_cases hmk : env.mkdirOk <;> simp [hc, he, hs, hf, hmk]
    · have hne : ¬(jp.ItemType = chars "Episode" ∧ jp.SeriesName ≠ []) := by
        intro hcontra
        rw [hm] at hcontra
        exact absurd hcontra.1 (by decide)
      rcases hfail with hf | hf
      · simp [hc, hne, hm, hf]
      · by_cases hmk : env.mkdirOk <;> simp [hc, hne, hm, hf, hmk]

/-- Witness for C7 (amended): a failing middle record is dropped from the
loop output, a conversion failure skips, a successful fetch always ends
in 200, a Jellyfin episode write failure yields 500, and a Jellyfin movie
directory-creation failure yields 500. -/
theorem c7_per_record_errors_amended_witness :
    runPlexLoop
        [(⟨chars "T", chars "1", chars "2", 1, 98⟩, ⟨true, true⟩),
         (⟨chars "U", chars "1", chars "2", 1, 98⟩, ⟨true, false⟩),
         (⟨chars "V", chars "1", chars "2", 1, 98⟩, ⟨true, true⟩)] =
      runPlexLoop
        [(⟨chars "T", chars "1", chars "2", 1, 98⟩, ⟨true, true⟩),
         (⟨chars "V", chars "1", chars "2", 1, 98⟩, ⟨true, true⟩)] ∧
    processRecord ⟨true, true⟩ ⟨chars "T", [], chars "2", 1, 98⟩ = .skip ∧
    (handlePlexStop (chars "/x/y") .transportFail []).status = 200 ∧
    handleJellyfinStop
        ⟨chars "playback.stop", chars "12", chars "Episode",
          ⟨chars "Stopped", 5, false, true⟩, chars "PlaybackStop",
          chars "B", chars "A", 1, 2⟩ ⟨true, false⟩ = ⟨500, none⟩ ∧
    handleJellyfinStop
        ⟨chars "playback.stop", chars "13", chars "Movie",
          ⟨chars "Stopped", 5, false, true⟩, chars "PlaybackStop",
          chars "M", [], 0, 0⟩ ⟨false, true⟩ = ⟨500, none⟩ :=
  ⟨c7_per_record_errors_amended.1
      [(⟨chars "T", chars "1", chars "2", 1, 98⟩, ⟨true, true⟩)]
      [(⟨chars "V", chars "1", chars "2", 1, 98⟩, ⟨true, true⟩)]
      ⟨chars "U", chars "1", chars "2", 1, 98⟩ ⟨true, false⟩ (by decide),
   c7_per_record_errors_amended.2.1 _ ⟨true, true⟩ (Or.inl (by decide)),
   c7_per_record_errors_amended.2.2.1 (chars "/x/y") .transportFail []
     ⟨none, rfl⟩,
   c7_per_record_errors_amended.2.2.2 _ ⟨true, false⟩ rfl rfl
     (Or.inl ⟨rfl, by decide⟩) (Or.inr rfl),
   c7_per_record_errors_amended.2.2.2 _ ⟨false, true⟩ rfl rfl
     (Or.inr rfl) (Or.inl rfl)⟩

/-- **C4, counterexample.**  The status check in `fetchMetadata` is
`!= 200`, not "non-2xx": a 204 response — a 2xx status — is turned into a
status error instead of being decoded. -/
theorem c4_status_204_counterexample :
    (fetchMetadata (chars "/library/metadata/1") (.response 204 [])).result =
      .error (.statusErr 204) ∧
    200 ≤ 204 ∧ 204 < 300 := by
  refine ⟨rfl, by decide, by decide⟩

/-- **C4, amended.**  For a path with an extractable key, `fetchMetadata`
issues the request and returns an error exactly in three cases — transport
failure, a status other than exactly 200 (the code carried in the error),
or a body that fails decoding after normalization — and on success returns
the contained list, substituting a fresh empty (never nil) slice when the
envelope's `data` is nil.  No case is retried: the model issues the single
request by construction. -/
theorem c4_fetch_errors_amended (path : Str) (out : HttpOutcome)
    (hp : path ≠ []) (hk : extractKeyFromPath path ≠ []) :
    (fetchMetadata path out).requested = true ∧
    (out = .transportFail → (fetchMetadata path out).result = .error .transportErr) ∧
    (∀ st body, out = .response st body → st ≠ 200 →
      (fetchMetadata path out).result = .error (.statusErr st)) ∧
    (∀ body, out = .response 200 body →
      goUnmarshalTautulli (normalizeBody body) = none →
      (fetchMetadata path out).result = .error .decodeErr) ∧
    (∀ body, out = .response 200 body →
      goUnmarshalTautulli (normalizeBody body) = some none →
      (fetchMetadata path out).result = .ok (some [])) ∧
    (∀ body xs, out = .response 200 body →
      goUnmarshalTautulli (normalizeBody body) = some (some xs) →
      (fetchMetadata path out).result = .ok (some xs)) := by
  refine ⟨?_, ?_, ?_, ?_, ?_, ?_⟩
  · cases out with
    | transportFail => simp [fetchMetadata, hp, hk]
    | response st body =>
      by_cases hst : st = 200
      · subst hst
        cases hdec : goUnmarshalTautulli (normalizeBody body) with
        | none => simp [fetchMetadata, hp, hk, hdec]
        | some d => cases d <;> simp [fetchMetadata, hp, hk, hdec]
      · simp [fetchMetadata, hp, hk, hst]
  · intro ho
    subst ho
    simp [fetchMetadata, hp, hk]
  · intro st body ho hst
    subst ho
    simp [fetchMetadata, hp, hk, hst]
  · intro body ho hdec
    subst ho
    simp [fetchMetadata, hp, hk, hdec]
  · intro body ho hdec
    subst ho
    simp [fetchMetadata, hp, hk, hdec]
  · intro body xs ho hdec
    subst ho
    simp [fetchMetadata, hp, hk, hdec]

/-- Witness for C4 (amended): a 500 upstream response at a keyed path is
reported as a status error. -/
theorem c4_fetch_errors_amended_witness :
    (fetchMetadata (chars "/library/metadata/1") (.response 500 [])).result =
      .error (.statusErr 500) :=
  (c4_fetch_errors_amended (chars "/library/metadata/1") (.response 500 [])
    (by decide) (by decide)).2.2.1 500 [] rfl (by decide)

/-- **C3, counterexample.**  A history record transmitted with
`parent_media_index: null` decodes to an empty `json.Number`; the
`Int64` conversion then fails and the record is skipped — not persisted
with a defaulted index 0 — although `watched_status = 1.0` qualifies. -/
theorem c3_null_index_counterexample :
    (fetchMetadata (chars "/library/metadata/1")
        (.response 200 (chars "\x7b\"response\": \x7b\"data\": \x7b\"data\": [\x7b\"full_title\": \"T\", \"parent_media_index\": null, \"media_index\": \"2\", \"watched_status\": 1.0, \"percent_complete\": 98\x7d]\x7d\x7d\x7d"))).result =
      .ok (some [⟨chars "T", [], chars "2", 1, 98⟩]) ∧
    processRecord ⟨true, true⟩ ⟨chars "T", [], chars "2", 1, 98⟩ = .skip ∧
    (1 : ℚ) ≤ 1 := by
  refine ⟨by decide, by decide, by decide⟩

/-- **C3, amended.**  Indices transmitted as decimal-digit strings that
fit a signed 64-bit integer resolve to their numeric value, and an empty
string — repaired to `"0"` by the pre-decode normalizer — resolves to 0;
but an index transmitted as `null` or omitted leaves the decoded
`json.Number` empty, its `Int64` conversion fails, and the record is
skipped rather than persisted, even when its watched status qualifies. -/
theorem c3_index_tolerance_amended :
    (∀ s : Str, allDigits s = true → s ≠ [] → digitsVal s ≤ 2 ^ 63 - 1 →
      goNumberInt64 s = some (digitsVal s : Int)) ∧
    goNumberInt64 (chars "0") = some 0 ∧
    goNumberInt64 [] = none ∧
    (∀ cur : Str, decodeNumberField .jnull cur = some cur) ∧
    (∀ (d : MediaData) (env : FsEnv),
      d.ParentMediaIndex = [] ∨ d.MediaIndex = [] → processRecord env d = .skip) := by
  refine ⟨?_, by decide, by decide, fun cur => rfl, ?_⟩
  · intro s h1 h2 h3
    rw [goNumberInt64, goAtoiOk_digits h1 h2 h3, atoiVal_digits h1 h2]
    simp
  · intro d env h
    rw [processRecord]
    rcases h with h | h
    · simp [goNumberInt64, h, goAtoiOk]
    · cases hp : goNumberInt64 d.ParentMediaIndex with
      | none => simp
      | some p => simp [goNumberInt64, h, goAtoiOk]

/-- Witness for C3 (amended): the digit string `7` resolves to 7, and a
record whose parent index is empty is skipped. -/
theorem c3_index_tolerance_amended_witness :
    goNumberInt64 (chars "7") = some (digitsVal (chars "7") : Int) ∧
    processRecord ⟨true, true⟩ ⟨chars "T", [], chars "2", 1, 98⟩ = .skip :=
  ⟨c3_index_tolerance_amended.1 (chars "7") (by decide) (by decide) (by decide),
   c3_index_tolerance_amended.2.2.2.2 _ ⟨true, true⟩ (Or.inl rfl)⟩

/-! ## Key-extractor lemmas for C2 -/

theorem allDigits_false_of_mem {s : Str} {c : Char} (hm : c ∈ s) (hc : c.isDigit = false) :
    allDigits s = false := by
  rw [allDigits, Bool.eq_false_iff]
  intro hall
  have := List.all_eq_true.mp hall c hm
  rw [hc] at this
  exact Bool.false_ne_true this

theorem slash_not_atoi {s : Str} (h : ('/' : Char) ∈ s) : goAtoiOk s = false := by
  cases s with
  | nil => simp at h
  | cons c rest =>
    rw [goAtoiOk]
    rcases List.mem_cons.mp h with hc | hm
    · subst hc
      simp [allDigits]
    · have hd : allDigits rest = false := allDigits_false_of_mem hm (by decide)
      have hd2 : allDigits (c :: rest) = false := by
        rw [allDigits] at hd ⊢
        simp [hd]
      by_cases h1 : c = '-'
      · simp [h1, hd]
      · by_cases h2 : c = '+'
        · simp [h1, h2, hd]
        · simp [h1, h2, hd2]

theorem digit_ne_slash {c : Char} (h : c.isDigit = true) : c ≠ '/' := by
  intro he
  subst he
  simp [Char.isDigit] at h

theorem noslash_of_allDigits {s : Str} (h : allDigits s = true) : ('/' : Char) ∉ s := by
  intro hm
  have := List.all_eq_true.mp h '/' hm
  simp [Char.isDigit] at this

theorem findSub_prefix : ∀ (s pat : Str) (i : Nat), findSub s pat = some i →
    pat.isPrefixOf (s.drop i) = true := by
  intro s
  induction s with
  | nil =>
    intro pat i h
    rw [findSub] at h
    split at h
    · next hp =>
      simp at h
      subst h
      exact hp
    · simp at h
  | cons c t ih =>
    intro pat i h
    rw [findSub] at h
    split at h
    · next hp =>
      simp at h
      subst h
      exact hp
    · simp only [Option.map_eq_some'] at h
      obtain ⟨j, hj, hi⟩ := h
      subst hi
      simpa using ih pat j hj

theorem findSub_exists : ∀ (s pat : Str) (j : Nat), pat.isPrefixOf (s.drop j) = true →
    ∃ i ≤ j, findSub s pat = some i := by
  intro s
  induction s with
  | nil =>
    intro pat j h
    simp only [List.drop_nil] at h
    refine ⟨0, Nat.zero_le j, ?_⟩
    rw [findSub]
    simp [h]
  | cons c t ih =>
    intro pat j h
    by_cases hp : pat.isPrefixOf (c :: t)
    · exact ⟨0, Nat.zero_le j, by rw [findSub]; simp [hp]⟩
    · cases j with
      | zero => exact absurd (by simpa using h) hp
      | succ j2 =>
        obtain ⟨i, hle, hf⟩ := ih pat j2 (by simpa using h)
        exact ⟨i + 1, by omega, by rw [findSub]; simp [hp, hf]⟩

theorem lastSlashIdx_none {s : Str} (h : ('/' : Char) ∉ s) : lastSlashIdx s = none := by
  induction s with
  | nil => rfl
  | cons c t ih =>
    rw [lastSlashIdx]
    have hc : c ≠ '/' := fun he => h (he ▸ List.mem_cons_self c t)
    rw [ih (fun hm => h (List.mem_cons_of_mem c hm))]
    simp [hc]

theorem lastSlashIdx_append {x ds : Str} (h : ('/' : Char) ∉ ds) :
    lastSlashIdx (x ++ '/' :: ds) = some x.length := by
  induction x with
  | nil =>
    rw [List.nil_append, lastSlashIdx, lastSlashIdx_none h]
    simp
  | cons c t ih =>
    rw [List.cons_append, lastSlashIdx, ih]
    simp

theorem drop_append_left {x y : Str} {k : Nat} (h : k ≤ x.length) :
    (x ++ y).drop k = x.drop k ++ y := by
  rw [List.drop_append_eq_append_drop]
  have : k - x.length = 0 := by omega
  rw [this, List.drop_zero]

theorem drop_append_exact (x y : Str) : (x ++ y).drop x.length = y := by
  rw [List.drop_append_eq_append_drop]
  simp

/-- The marker without its final slash. -/
def markerBody : Str := chars "/library/metadata"

theorem marker_split : marker = markerBody ++ ['/'] := by decide

/-- **C2, counterexample.**  A path in which the marker is immediately
followed by twenty decimal digits: the digits overflow a signed 64-bit
integer, `strconv.Atoi` rejects both the marker tail and the trailing
segment, and the extractor returns the no-key result instead of the
digits. -/
theorem c2_overflow_counterexample :
    allDigits (chars "99999999999999999999") = true ∧
    chars "99999999999999999999" ≠ [] ∧
    chars "/library/metadata/99999999999999999999" =
      marker ++ chars "99999999999999999999" ∧
    extractKeyFromPath (marker ++ chars "99999999999999999999") = [] := by
  refine ⟨by decide, by decide, by decide, by decide⟩

/-- **C2, amended.**  For every path in which the marker
`/library/metadata/` is immediately followed by decimal digits whose
value fits a signed 64-bit integer, the extractor returns exactly those
digits; for every path ending in a slash followed by such digits, without
the marker, it returns the trailing digits; the empty path, paths with no
slash, and marker-free paths whose trailing segment fails `strconv.Atoi`
give the no-key result, with no error. -/
theorem c2_extractor_amended :
    (∀ a ds : Str, allDigits ds = true → ds ≠ [] → digitsVal ds ≤ 2 ^ 63 - 1 →
      extractKeyFromPath (a ++ (marker ++ ds)) = ds) ∧
    (∀ a ds : Str, allDigits ds = true → ds ≠ [] → digitsVal ds ≤ 2 ^ 63 - 1 →
      findSub (a ++ '/' :: ds) marker = none →
      extractKeyFromPath (a ++ '/' :: ds) = ds) ∧
    extractKeyFromPath [] = [] ∧
    (∀ p : Str, ('/' : Char) ∉ p → extractKeyFromPath p = []) ∧
    (∀ (p : Str) (i : Nat), findSub p marker = none → lastSlashIdx p = some i →
      goAtoiOk (p.drop (i + 1)) = false → extractKeyFromPath p = []) := by
  have hslashmem : ('/' : Char) ∈ marker := by decide
  have hatoi : ∀ ds : Str, allDigits ds = true → ds ≠ [] → digitsVal ds ≤ 2 ^ 63 - 1 →
      goAtoiOk ds = true := fun ds h1 h2 h3 => goAtoiOk_digits h1 h2 h3
  refine ⟨?_, ?_, by decide, ?_, ?_⟩
  · intro a ds h1 h2 h3
    have hnos : ('/' : Char) ∉ ds := noslash_of_allDigits h1
    have hocc : marker.isPrefixOf ((a ++ (marker ++ ds)).drop a.length) = true := by
      rw [drop_append_exact a (marker ++ ds)]
      exact List.isPrefixOf_iff_prefix.mpr (List.prefix_append marker ds)
    obtain ⟨i, hile, hfind⟩ := findSub_exists (a ++ (marker ++ ds)) marker a.length hocc
    rw [extractKeyFromPath, hfind]
    by_cases hieq : i = a.length
    · subst hieq
      have hkey : (a ++ (marker ++ ds)).drop (a.length + marker.length) = ds := by
        rw [← List.append_assoc, ← List.length_append a marker]
        exact drop_append_exact (a ++ marker) ds
      simp [hkey, hatoi ds h1 h2 h3]
    · have hilt : i < a.length := by omega
      have hkeyslash : ('/' : Char) ∈ (a ++ (marker ++ ds)).drop (i + marker.length) := by
        have hsplit : a ++ (marker ++ ds) = (a ++ markerBody) ++ ('/' :: ds) := by
          rw [marker_split]
          simp
        rw [hsplit, drop_append_left (by
          have : marker.length = markerBody.length + 1 := by decide
          simp only [List.length_append]
          omega)]
        simp
      have hbad : goAtoiOk ((a ++ (marker ++ ds)).drop (i + marker.length)) = false :=
        slash_not_atoi hkeyslash
      have hsplit : a ++ (marker ++ ds) = (a ++ markerBody) ++ ('/' :: ds) := by
        rw [marker_split]
        simp
      have hlast : lastSlashIdx (a ++ (marker ++ ds)) = some (a ++ markerBody).length := by
        rw [hsplit]
        exact lastSlashIdx_append hnos
      have hkey2 : (a ++ (marker ++ ds)).drop ((a ++ markerBody).length + 1) = ds := by
        rw [hsplit]
        have : (a ++ markerBody).length + 1 = ((a ++ markerBody) ++ ['/']).length := by
          simp
          omega
        rw [this]
        have : (a ++ markerBody) ++ ('/' :: ds) = ((a ++ markerBody) ++ ['/']) ++ ds := by
          simp
        rw [this]
        exact drop_append_exact _ ds
      rw [hlast]
      simp only [List.length_append] at hkey2
      simp [hbad, hkey2, hatoi ds h1 h2 h3]
  · intro a ds h1 h2 h3 hnf
    have hnos : ('/' : Char) ∉ ds := noslash_of_allDigits h1
    rw [extractKeyFromPath, hnf, lastSlashIdx_append hnos]
    have hkey : (a ++ '/' :: ds).drop (a.length + 1) = ds := by
      have : a ++ '/' :: ds = (a ++ ['/']) ++ ds := by simp
      rw [this]
      have hl : a.length + 1 = (a ++ ['/']).length := by simp
      rw [hl]
      exact drop_append_exact _ ds
    simp [hkey, hatoi ds h1 h2 h3]
  · intro p hp
    have hnf : findSub p marker = none := by
      cases hf : findSub p marker with
      | none => rfl
      | some i =>
        have hpre := findSub_prefix p marker i hf
        have : ('/' : Char) ∈ p.drop i := by
          have hsub := List.isPrefixOf_iff_prefix.mp hpre
          exact hsub.subset hslashmem
        exact absurd (List.mem_of_mem_drop this) hp
    rw [extractKeyFromPath, hnf, lastSlashIdx_none hp]
  · intro p i hnf hlast hbad
    rw [extractKeyFromPath, hnf, hlast]
    simp [hbad]

/-- Witness for C2 (amended): the marker path with key `12345`, a
fallback path ending in `678`, and the no-key cases. -/
theorem c2_extractor_amended_witness :
    extractKeyFromPath (chars "" ++ (marker ++ chars "12345")) = chars "12345" ∧
    extractKeyFromPath (chars "/foo" ++ '/' :: chars "678") = chars "678" ∧
    extractKeyFromPath (chars "nokey") = [] ∧
    extractKeyFromPath (chars "/some/other/path") = [] :=
  ⟨c2_extractor_amended.1 (chars "") (chars "12345") (by decide) (by decide) (by decide),
   c2_extractor_amended.2.1 (chars "/foo") (chars "678") (by decide) (by decide)
     (by decide) (by decide),
   c2_extractor_amended.2.2.2.1 (chars "nokey") (by decide),
   c2_extractor_amended.2.2.2.2 (chars "/some/other/path") 11 (by decide) (by decide)
     (by decide)⟩

/-! ## The rendering model for C1

C1 quantifies over response bodies with arbitrary field order and
arbitrary whitespace.  A body is modelled as a rendered token list: each
token is annotated with the whitespace preceding it, and a trailing
whitespace run follows the last token.  Arbitrary field order is the
arbitrary token list; arbitrary surrounding whitespace is the arbitrary
annotation.  `tokNorm1` is the token-level image of one
`regexp.ReplaceAllString` pass, and the central lemma shows the textual
replacement over a rendering is exactly that token-level rewrite. -/

/-- A token annotated with the whitespace run rendered before it. -/
abbrev Ann := Str × JTok

/-- Render an annotated token list followed by a trailing whitespace
run. -/
def renderAnn : List Ann → Str → Str
  | [], trail => trail
  | (w, t) :: rest, trail => w ++ (tokText t ++ renderAnn rest trail)

/-- A whitespace run: JSON whitespace characters only. -/
def wsOk (w : Str) : Bool := w.all isJsonWs

/-- String contents that render literally: no quote, no backslash, no
control characters. -/
def strContentOk (s : Str) : Bool :=
  s.all (fun c => !(c = '"') && !(c = '\\') && !(c.toNat < 32))

/-- Well-formed tokens: renderable string contents, grammatical number
literals. -/
def tokOk : JTok → Bool
  | .str s => strContentOk s
  | .num r => jsonNumberValid r
  | _ => true

/-- Token adjacency constraints: two adjacent number literals would merge
when rendered without whitespace, and a number immediately after an
empty-string token would merge with the `0` the normalizer writes.
Neither pair occurs in any decodable body. -/
def pairOk : JTok → JTok → Bool
  | .num _, .num _ => false
  | .str s, .num _ => !s.isEmpty
  | _, _ => true

/-- `pairOk` along a token list. -/
def chainOk : List JTok → Bool
  | [] => true
  | [_] => true
  | t1 :: t2 :: rest => pairOk t1 t2 && chainOk (t2 :: rest)

/-- Well-formed annotated lists. -/
def annOk (l : List Ann) : Bool :=
  l.all (fun a => wsOk a.1 && tokOk a.2) && chainOk (l.map Prod.snd)

/-- Characters that can start the rendering of a well-formed annotated
list: a whitespace character or the first character of a token text. -/
def tokStartCh (c : Char) : Bool :=
  isJsonWs c || c = '\x7b' || c = '\x7d' || c = '[' || c = ']' || c = ':' || c = ',' ||
    c = '"' || c = 'n' || c = 't' || c = 'f' || c.isDigit || c = '-'

/-- A usable field name for the replacement pattern: nonempty, rendered
literally, and starting with a character that cannot start a token or a
whitespace run (the four Tautulli field names start with `p`, `m`, `w`). -/
def nameOk (name : Str) : Bool :=
  match name with
  | [] => false
  | c :: _ => strContentOk name && !tokStartCh c

/-- One `regexp.ReplaceAllString` pass at the token level: every
`"name" : ""` member has its whitespace collapsed and its empty-string
value replaced by `z`. -/
def isPatAt (name : Str) (a : Ann) (rest : List Ann) : Bool :=
  match a.2, rest with
  | .str fd, (_, .colon) :: ((_, .str s) :: _) => fd = name ∧ s = []
  | _, _ => false

def tokNorm1F (name : Str) (z : JTok) : Nat → List Ann → List Ann
  | 0, l => l
  | _ + 1, [] => []
  | f + 1, a :: rest =>
    if isPatAt name a rest then
      a :: (([], .colon) :: (([], z) :: tokNorm1F name z f (rest.drop 2)))
    else a :: tokNorm1F name z f rest

/-- `tokNorm1F` with always-sufficient fuel. -/
def tokNorm1 (name : Str) (z : JTok) (l : List Ann) : List Ann :=
  tokNorm1F name z (l.length + 1) l

theorem tokNorm1F_irrel (name : Str) (z : JTok) : ∀ (f : Nat) (l : List Ann),
    l.length + 1 ≤ f → tokNorm1F name z f l = tokNorm1 name z l := by
  intro f
  induction f using Nat.strong_induction_on with
  | _ f ih =>
    intro l hf
    cases f with
    | zero => omega
    | succ f =>
      cases l with
      | nil => simp [tokNorm1F, tokNorm1]
      | cons a rest =>
        simp only [List.length_cons] at hf
        rw [tokNorm1]
        simp only [List.length_cons]
        rw [tokNorm1F, tokNorm1F]
        have hd2 : (rest.drop 2).length ≤ rest.length := by
          rw [List.length_drop]
          omega
        by_cases hp : isPatAt name a rest = true
        · simp only [hp, if_true]
          rw [ih f (by omega) (rest.drop 2) (by omega),
            ih (rest.length + 1) (by omega) (rest.drop 2) (by omega)]
        · simp only [Bool.not_eq_true] at hp
          simp only [hp, Bool.false_eq_true, if_false]
          rw [ih f (by omega) rest (by omega),
            ih (rest.length + 1) (by omega) rest (by omega)]

/-- One-step unfolding of `tokNorm1` at a cons. -/
theorem tokNorm1_cons (name : Str) (z : JTok) (a : Ann) (rest : List Ann) :
    tokNorm1 name z (a :: rest) =
      if isPatAt name a rest then
        a :: (([], .colon) :: (([], z) :: tokNorm1 name z (rest.drop 2)))
      else a :: tokNorm1 name z rest := by
  rw [tokNorm1]
  simp only [List.length_cons]
  rw [tokNorm1F]
  have hd2 : (rest.drop 2).length ≤ rest.length := by
    rw [List.length_drop]
    omega
  by_cases hp : isPatAt name a rest = true
  · simp only [hp, if_true]
    rw [tokNorm1F_irrel name z (rest.length + 1) (rest.drop 2) (by omega)]
  · simp only [Bool.not_eq_true] at hp
    simp only [hp, Bool.false_eq_true, if_false]
    rw [tokNorm1F_irrel name z (rest.length + 1) rest (by omega)]

/-- Unfolding `tokNorm1` at a full member pattern. -/
theorem tokNorm1_pattern (name : Str) (z : JTok) (w1 fd w2 w3 s : Str)
    (rest2 : List Ann) :
    tokNorm1 name z ((w1, .str fd) :: ((w2, .colon) :: ((w3, .str s) :: rest2))) =
      if fd = name ∧ s = [] then
        (w1, .str fd) :: (([], .colon) :: (([], z) :: tokNorm1 name z rest2))
      else (w1, .str fd) :: tokNorm1 name z ((w2, .colon) :: ((w3, .str s) :: rest2)) := by
  rw [tokNorm1_cons]
  by_cases hc : fd = name ∧ s = []
  · have hb : isPatAt name (w1, .str fd) ((w2, .colon) :: ((w3, .str s) :: rest2)) = true := by
      simp [isPatAt, hc.1, hc.2]
    rw [hb, if_pos hc]
    simp
  · have hb : isPatAt name (w1, .str fd) ((w2, .colon) :: ((w3, .str s) :: rest2)) = false := by
      by_cases h1 : fd = name
      · have h2 : ¬(s = []) := fun h => hc ⟨h1, h⟩
        simp [isPatAt, h1, h2]
      · simp [isPatAt, h1]
    rw [hb]
    simp only [Bool.false_eq_true, if_false, if_neg hc]

/-- Unfolding `tokNorm1` when the head token is not a string. -/
theorem tokNorm1_cons_nonstr (name : Str) (z : JTok) (w1 : Str) (t1 : JTok)
    (rest : List Ann) (h : ∀ s, t1 ≠ .str s) :
    tokNorm1 name z ((w1, t1) :: rest) = (w1, t1) :: tokNorm1 name z rest := by
  rw [tokNorm1_cons]
  have hb : isPatAt name (w1, t1) rest = false := by
    cases t1 with
    | str u => exact absurd rfl (h u)
    | lbrace => simp [isPatAt]
    | rbrace => simp [isPatAt]
    | lbrack => simp [isPatAt]
    | rbrack => simp [isPatAt]
    | colon => simp [isPatAt]
    | comma => simp [isPatAt]
    | num r => simp [isPatAt]
    | nullT => simp [isPatAt]
    | trueT => simp [isPatAt]
    | falseT => simp [isPatAt]
  rw [hb]
  simp only [Bool.false_eq_true, if_false]

/-- Unfolding `tokNorm1` at a string token not followed by a
colon-and-string pair. -/
theorem tokNorm1_cons_str_nonpattern (name : Str) (z : JTok) (w1 s0 : Str)
    (rest : List Ann)
    (h : ∀ (w2 w3 s : Str) (rest2 : List Ann),
      rest ≠ (w2, .colon) :: ((w3, .str s) :: rest2)) :
    tokNorm1 name z ((w1, .str s0) :: rest) = (w1, .str s0) :: tokNorm1 name z rest := by
  rw [tokNorm1_cons]
  have hb : isPatAt name (w1, .str s0) rest = false := by
    cases rest with
    | nil => simp [isPatAt]
    | cons b rest1 =>
      obtain ⟨w2, t2⟩ := b
      cases t2 with
      | colon =>
        cases rest1 with
        | nil => simp [isPatAt]
        | cons c rest2 =>
          obtain ⟨w3, t3⟩ := c
          cases t3 with
          | str s => exact absurd rfl (h w2 w3 s rest2)
          | lbrace => simp [isPatAt]
          | rbrace => simp [isPatAt]
          | lbrack => simp [isPatAt]
          | rbrack => simp [isPatAt]
          | colon => simp [isPatAt]
          | comma => simp [isPatAt]
          | num r => simp [isPatAt]
          | nullT => simp [isPatAt]
          | trueT => simp [isPatAt]
          | falseT => simp [isPatAt]
      | str u => simp [isPatAt]
      | lbrace => simp [isPatAt]
      | rbrace => simp [isPatAt]
      | lbrack => simp [isPatAt]
      | rbrack => simp [isPatAt]
      | comma => simp [isPatAt]
      | num r => simp [isPatAt]
      | nullT => simp [isPatAt]
      | trueT => simp [isPatAt]
      | falseT => simp [isPatAt]
  rw [hb]
  simp only [Bool.false_eq_true, if_false]

/-- The four passes of `normalizeBody` at the token level, in program
order. -/
def tokNormalize (l : List Ann) : List Ann :=
  tokNorm1 (chars "percent_complete") (.num (chars "0"))
    (tokNorm1 (chars "watched_status") (.num (chars "0"))
      (tokNorm1 (chars "media_index") (.str (chars "0"))
        (tokNorm1 (chars "parent_media_index") (.str (chars "0")) l)))

/-! ### Character-class facts about valid number literals -/

theorem isNumChar_of_digit {c : Char} (h : c.isDigit = true) : isNumChar c = true := by
  simp [isNumChar, h]

theorem allDigits_numChar {s : Str} (h : allDigits s = true) :
    ∀ c ∈ s, isNumChar c = true := fun c hc =>
  isNumChar_of_digit (List.all_eq_true.mp h c hc)

theorem expTail_numChar {s : Str} (h : expTail s = true) : ∀ c ∈ s, isNumChar c = true := by
  cases s with
  | nil => simp
  | cons c t =>
    rw [expTail] at h
    intro x hx
    split at h
    · next hsign =>
      simp only [Bool.and_eq_true] at h
      rcases List.mem_cons.mp hx with hh | hm
      · subst hh
        rcases Bool.or_eq_true_iff.mp hsign with h1 | h1 <;>
          rw [decide_eq_true_eq] at h1 <;> simp [isNumChar, h1]
      · exact allDigits_numChar h.2 x hm
    · exact allDigits_numChar h x hx

theorem afterFrac_numChar {s : Str} (h : afterFrac s = true) :
    ∀ c ∈ s, isNumChar c = true := by
  cases s with
  | nil => simp
  | cons c t =>
    rw [afterFrac] at h
    intro x hx
    split at h
    · next he =>
      rcases List.mem_cons.mp hx with hh | hm
      · subst hh
        rcases Bool.or_eq_true_iff.mp he with h1 | h1 <;>
          rw [decide_eq_true_eq] at h1 <;> simp [isNumChar, h1]
      · exact expTail_numChar h x hm
    · simp at h

theorem afterInt_numChar {s : Str} (h : afterInt s = true) :
    ∀ c ∈ s, isNumChar c = true := by
  cases s with
  | nil => simp
  | cons c t =>
    rw [afterInt] at h
    intro x hx
    split at h
    · next hdot =>
      simp only [Bool.and_eq_true] at h
      rcases List.mem_cons.mp hx with hh | hm
      · subst hh
        simp [isNumChar, hdot]
      · rw [← List.takeWhile_append_dropWhile (p := Char.isDigit) (l := t)] at hm
        rcases List.mem_append.mp hm with h1 | h1
        · exact isNumChar_of_digit (List.mem_takeWhile_imp h1)
        · exact afterFrac_numChar h.2 x h1
    · exact afterFrac_numChar h x hx

theorem intPartValid_numChar {s : Str} (h : intPartValid s = true) :
    ∀ c ∈ s, isNumChar c = true := by
  cases s with
  | nil => simp
  | cons c t =>
    rw [intPartValid] at h
    intro x hx
    split at h
    · next h0 =>
      rcases List.mem_cons.mp hx with hh | hm
      · subst hh
        simp [isNumChar, h0]
      · exact afterInt_numChar h x hm
    · split at h
      · next hd =>
        rcases List.mem_cons.mp hx with hh | hm
        · subst hh
          exact isNumChar_of_digit hd
        · rw [← List.takeWhile_append_dropWhile (p := Char.isDigit) (l := t)] at hm
          rcases List.mem_append.mp hm with h1 | h1
          · exact isNumChar_of_digit (List.mem_takeWhile_imp h1)
          · exact afterInt_numChar h x h1
      · simp at h

theorem jsonNumberValid_numChar {s : Str} (h : jsonNumberValid s = true) :
    ∀ c ∈ s, isNumChar c = true := by
  cases s with
  | nil => simp
  | cons c t =>
    rw [jsonNumberValid] at h
    intro x hx
    split at h
    · next hc =>
      rcases List.mem_cons.mp hx with hh | hm
      · subst hh
        simp [isNumChar, hc]
      · exact intPartValid_numChar h x hm
    · exact intPartValid_numChar h x hx

theorem jsonNumberValid_head {s : Str} (h : jsonNumberValid s = true) :
    ∃ c t, s = c :: t ∧ (c = '-' ∨ c.isDigit = true) := by
  cases s with
  | nil => simp [jsonNumberValid] at h
  | cons c t =>
    refine ⟨c, t, rfl, ?_⟩
    rw [jsonNumberValid] at h
    split at h
    · next hc => exact Or.inl hc
    · right
      rw [intPartValid] at h
      split at h
      · next h0 => simp [h0]
      · split at h
        · next hd => exact hd
        · simp at h

/-! ### Decomposing well-formedness -/

theorem annOk_cons {w : Str} {t : JTok} {rest : List Ann}
    (h : annOk ((w, t) :: rest) = true) :
    wsOk w = true ∧ tokOk t = true ∧ annOk rest = true := by
  rw [annOk] at h
  simp only [Bool.and_eq_true, List.all_cons] at h
  obtain ⟨⟨h1, h2⟩, h3⟩ := h
  refine ⟨h1.1, h1.2, ?_⟩
  rw [annOk]
  simp only [Bool.and_eq_true]
  refine ⟨h2, ?_⟩
  simp only [List.map_cons] at h3
  cases hm : rest.map Prod.snd with
  | nil => simp [chainOk]
  | cons t2 ts =>
    rw [hm] at h3
    rw [chainOk] at h3
    exact ((Bool.and_eq_true _ _).mp h3).2

theorem annOk_pair {w : Str} {t : JTok} {w2 : Str} {t2 : JTok} {rest : List Ann}
    (h : annOk ((w, t) :: ((w2, t2) :: rest)) = true) : pairOk t t2 = true := by
  rw [annOk] at h
  simp only [Bool.and_eq_true, List.map_cons] at h
  rw [chainOk] at h
  exact ((Bool.and_eq_true _ _).mp h.2).1

/-! ### The first character of a rendering -/

theorem isJsonWs_start {c : Char} (h : isJsonWs c = true) : tokStartCh c = true := by
  simp [tokStartCh, h]

theorem tokText_head {t : JTok} (ht : tokOk t = true) :
    ∃ c cs, tokText t = c :: cs ∧ tokStartCh c = true := by
  cases t with
  | str s => exact ⟨'"', s ++ ['"'], rfl, by decide⟩
  | num r =>
    obtain ⟨c, cs, he, hc⟩ := jsonNumberValid_head (by simpa [tokOk] using ht)
    refine ⟨c, cs, by simp [tokText, he], ?_⟩
    rcases hc with hc | hc
    · simp [tokStartCh, hc]
    · simp [tokStartCh, hc]
  | lbrace => exact ⟨_, _, rfl, by decide⟩
  | rbrace => exact ⟨_, _, rfl, by decide⟩
  | lbrack => exact ⟨_, _, rfl, by decide⟩
  | rbrack => exact ⟨_, _, rfl, by decide⟩
  | colon => exact ⟨_, _, rfl, by decide⟩
  | comma => exact ⟨_, _, rfl, by decide⟩
  | nullT => exact ⟨_, _, rfl, by decide⟩
  | trueT => exact ⟨_, _, rfl, by decide⟩
  | falseT => exact ⟨_, _, rfl, by decide⟩

theorem renderAnn_head {l : List Ann} {trail : Str} (hl : annOk l = true)
    (ht : wsOk trail = true) :
    ∀ c cs, renderAnn l trail = c :: cs → tokStartCh c = true := by
  intro c cs he
  cases l with
  | nil =>
    rw [renderAnn] at he
    have : c ∈ trail := by rw [he]; simp
    exact isJsonWs_start (List.all_eq_true.mp ht c this)
  | cons a rest =>
    obtain ⟨w, t⟩ := a
    obtain ⟨hw, htok, -⟩ := annOk_cons hl
    rw [renderAnn] at he
    cases w with
    | cons cw ws =>
      simp only [List.cons_append] at he
      have : cw = c := by injection he
      subst this
      exact isJsonWs_start (List.all_eq_true.mp hw cw (by simp))
    | nil =>
      obtain ⟨c0, cs0, hto, hst⟩ := tokText_head htok
      rw [List.nil_append, hto] at he
      simp only [List.cons_append] at he
      have : c0 = c := by injection he
      subst this
      exact hst

/-! ### Stepping the replacement scanner -/

theorem matchEmptyField_not_quote {name : Str} {c : Char} {s : Str} (h : c ≠ '"') :
    matchEmptyField name (c :: s) = none := by
  rw [matchEmptyField]
  have : (('"' :: (name ++ ['"'])).isPrefixOf (c :: s)) = false := by
    rw [List.isPrefixOf]
    simp [Ne.symm h]
  rw [this]
  simp

theorem replace_step_none {name repl : Str} {c : Char} {s : Str}
    (h : matchEmptyField name (c :: s) = none) :
    replaceEmptyField name repl (c :: s) = c :: replaceEmptyField name repl s := by
  rw [replaceEmptyField, replaceEmptyField, List.length_cons, replaceEmptyFieldF, h]

theorem replace_step_some {name repl : Str} {c : Char} {s after : Str}
    (h : matchEmptyField name (c :: s) = some after) :
    replaceEmptyField name repl (c :: s) = repl ++ replaceEmptyField name repl after := by
  have hlen : after.length < s.length + 1 := by
    have := matchEmptyField_length h
    simpa using this
  rw [replaceEmptyField, List.length_cons]
  simp only [replaceEmptyFieldF, h]
  rw [replaceEmptyFieldF_irrel name repl (s.length + 1) after (by omega)]

theorem replace_skip {name repl : Str} : ∀ {x y : Str}, (∀ c ∈ x, c ≠ '"') →
    replaceEmptyField name repl (x ++ y) = x ++ replaceEmptyField name repl y := by
  intro x
  induction x with
  | nil => intro y h; simp
  | cons c t ih =>
    intro y h
    rw [List.cons_append,
      replace_step_none (matchEmptyField_not_quote (h c (by simp))),
      ih (fun d hd => h d (by simp [hd]))]
    simp

theorem replace_id {name repl : Str} {x : Str} (h : ∀ c ∈ x, c ≠ '"') :
    replaceEmptyField name repl x = x := by
  have h2 : replaceEmptyField name repl (x ++ []) = x ++ replaceEmptyField name repl [] :=
    replace_skip h
  have h0 : replaceEmptyField name repl [] = [] := rfl
  rw [h0] at h2
  simpa using h2

theorem wsOk_no_quote {w : Str} (h : wsOk w = true) : ∀ c ∈ w, c ≠ '"' := by
  intro c hc he
  have := List.all_eq_true.mp h c hc
  subst he
  simp [isJsonWs] at this

theorem strContentOk_no_quote {s : Str} (h : strContentOk s = true) : ∀ c ∈ s, c ≠ '"' := by
  intro c hc he
  have := List.all_eq_true.mp h c hc
  subst he
  simp at this

theorem numChar_no_quote {r : Str} (h : jsonNumberValid r = true) : ∀ c ∈ r, c ≠ '"' := by
  intro c hc he
  have := jsonNumberValid_numChar h c hc
  subst he
  simp [isNumChar] at this

/-- The text of any non-string token contains no quote. -/
theorem tokText_no_quote {t : JTok} (ht : tokOk t = true) (hs : ∀ s, t ≠ .str s) :
    ∀ c ∈ tokText t, c ≠ '"' := by
  cases t with
  | str s => exact absurd rfl (hs s)
  | num r => exact numChar_no_quote (by simpa [tokOk] using ht)
  | lbrace => intro c hc he; subst he; exact absurd hc (by decide)
  | rbrace => intro c hc he; subst he; exact absurd hc (by decide)
  | lbrack => intro c hc he; subst he; exact absurd hc (by decide)
  | rbrack => intro c hc he; subst he; exact absurd hc (by decide)
  | colon => intro c hc he; subst he; exact absurd hc (by decide)
  | comma => intro c hc he; subst he; exact absurd hc (by decide)
  | nullT => intro c hc he; subst he; exact absurd hc (by decide)
  | trueT => intro c hc he; subst he; exact absurd hc (by decide)
  | falseT => intro c hc he; subst he; exact absurd hc (by decide)

/-! ### Whitespace runs under the Go scanner -/

theorem isGoWs_of_json {c : Char} (h : isJsonWs c = true) : isGoWs c = true := by
  simp [isGoWs, h]

theorem dropWhile_goWs_append {w y : Str} (h : ∀ c ∈ w, isJsonWs c = true) :
    (w ++ y).dropWhile isGoWs = y.dropWhile isGoWs := by
  induction w with
  | nil => simp
  | cons c t ih =>
    rw [List.cons_append, List.dropWhile_cons]
    rw [isGoWs_of_json (h c (by simp))]
    simp only [if_true]
    exact ih (fun d hd => h d (by simp [hd]))

theorem dropWhile_goWs_head {c : Char} {y : Str} (h : isGoWs c = false) :
    (c :: y).dropWhile isGoWs = c :: y := by
  rw [List.dropWhile_cons, h]
  simp

/-- First characters of token texts (whitespace excluded). -/
def tokHeadCh (c : Char) : Bool :=
  c = '\x7b' || c = '\x7d' || c = '[' || c = ']' || c = ':' || c = ',' ||
    c = '"' || c = 'n' || c = 't' || c = 'f' || c.isDigit || c = '-'

theorem tokHeadCh_start {c : Char} (h : tokHeadCh c = true) : tokStartCh c = true := by
  rw [tokStartCh]
  rw [tokHeadCh] at h
  simp only [Bool.or_eq_true] at h ⊢
  tauto

theorem tokHeadCh_not_goWs {c : Char} (h : tokHeadCh c = true) : isGoWs c = false := by
  rw [tokHeadCh] at h
  simp only [Bool.or_eq_true, decide_eq_true_eq] at h
  rcases h with ((((((((((h | h) | h) | h) | h) | h) | h) | h) | h) | h) | h) | h
  all_goals first
    | (subst h; decide)
    | (rw [Bool.eq_false_iff]
       intro hws
       have h1 : c.toNat ∈ [32, 9, 10, 13, 12] := by
         rw [isGoWs, isJsonWs] at hws
         simp only [Bool.or_eq_true, decide_eq_true_eq] at hws
         rcases hws with ((((h2 | h2) | h2) | h2) | h2) <;> subst h2 <;> simp
       have h2 : 48 ≤ c.toNat ∧ c.toNat ≤ 57 := by
         rw [Char.isDigit] at h
         simp only [Bool.and_eq_true, decide_eq_true_eq] at h
         exact ⟨h.1, h.2⟩
       simp at h1
       omega)

/-- The head of `tokText t`, characterized. -/
theorem tokText_head2 {t : JTok} (ht : tokOk t = true) :
    ∃ c cs, tokText t = c :: cs ∧ tokHeadCh c = true := by
  cases t with
  | str s => exact ⟨'"', s ++ ['"'], rfl, by decide⟩
  | num r =>
    obtain ⟨c, cs, he, hc⟩ := jsonNumberValid_head (by simpa [tokOk] using ht)
    refine ⟨c, cs, by simp [tokText, he], ?_⟩
    rcases hc with hc | hc
    · simp [tokHeadCh, hc]
    · simp [tokHeadCh, hc]
  | lbrace => exact ⟨_, _, rfl, by decide⟩
  | rbrace => exact ⟨_, _, rfl, by decide⟩
  | lbrack => exact ⟨_, _, rfl, by decide⟩
  | rbrack => exact ⟨_, _, rfl, by decide⟩
  | colon => exact ⟨_, _, rfl, by decide⟩
  | comma => exact ⟨_, _, rfl, by decide⟩
  | nullT => exact ⟨_, _, rfl, by decide⟩
  | trueT => exact ⟨_, _, rfl, by decide⟩
  | falseT => exact ⟨_, _, rfl, by decide⟩

theorem tokText_head_ne_colon {t : JTok} (ht : tokOk t = true) (hc : t ≠ .colon) :
    ∀ c cs, tokText t = c :: cs → c ≠ ':' := by
  intro c cs he
  cases t with
  | colon => exact absurd rfl hc
  | num r =>
    obtain ⟨c2, cs2, he2, hd⟩ := jsonNumberValid_head (by simpa [tokOk] using ht)
    rw [tokText] at he
    rw [he2] at he
    injection he with h1 h2
    subst h1
    rcases hd with hd | hd
    · simp [hd]
    · intro hcol
      subst hcol
      simp [Char.isDigit] at hd
  | str s => rw [tokText] at he; injection he with h1 h2; subst h1; decide
  | lbrace => rw [tokText] at he; injection he with h1 h2; subst h1; decide
  | rbrace => rw [tokText] at he; injection he with h1 h2; subst h1; decide
  | lbrack => rw [tokText] at he; injection he with h1 h2; subst h1; decide
  | rbrack => rw [tokText] at he; injection he with h1 h2; subst h1; decide
  | comma => rw [tokText] at he; injection he with h1 h2; subst h1; decide
  | nullT => rw [tokText, chars] at he; injection he with h1 h2; subst h1; decide
  | trueT => rw [tokText, chars] at he; injection he with h1 h2; subst h1; decide
  | falseT => rw [tokText, chars] at he; injection he with h1 h2; subst h1; decide

theorem tokText_head_ne_quote {t : JTok} (ht : tokOk t = true) (hs : ∀ s, t ≠ .str s) :
    ∀ c cs, tokText t = c :: cs → c ≠ '"' := fun c cs he =>
  tokText_no_quote ht hs c (by rw [he]; simp)

/-! ### Computing `matchEmptyField` on renderings -/

theorem isPrefixOf_append_self (x y : Str) : x.isPrefixOf (x ++ y) = true :=
  List.isPrefixOf_iff_prefix.mpr (List.prefix_append x y)

/-- The positive case: the pattern matches exactly at the rendering of a
`"name" : ""` member. -/
theorem matchEmptyField_at_pattern {name w2 w3 R : Str}
    (hw2 : wsOk w2 = true) (hw3 : wsOk w3 = true) :
    matchEmptyField name
        ('"' :: (name ++ ('"' :: (w2 ++ (':' :: (w3 ++ ('"' :: ('"' :: R)))))))) = some R := by
  have hsplit : '"' :: (name ++ ('"' :: (w2 ++ (':' :: (w3 ++ ('"' :: ('"' :: R))))))) =
      ('"' :: (name ++ ['"'])) ++ (w2 ++ (':' :: (w3 ++ ('"' :: ('"' :: R))))) := by
    simp
  have hlen : name.length + 2 = ('"' :: (name ++ ['"'])).length := by
    simp
  rw [matchEmptyField, hsplit, isPrefixOf_append_self, hlen, drop_append_exact,
    dropWhile_goWs_append (List.all_eq_true.mp hw2), dropWhile_goWs_head (by decide)]
  simp only [List.head?_cons, List.tail_cons]
  rw [dropWhile_goWs_append (List.all_eq_true.mp hw3), dropWhile_goWs_head (by decide)]
  have hp2 : (('"' :: ['"'] : Str)).isPrefixOf ('"' :: ('"' :: R)) = true := by
    rw [show ('"' :: ('"' :: R)) = (('"' :: ['"'] : Str) ++ R) from rfl, isPrefixOf_append_self]
  simp [hp2]

/-- A quote-free string followed by a quote determines itself: if the
pattern's quoted name is a prefix of a rendered quoted string, the two
strings are equal. -/
theorem quoted_prefix_eq : ∀ (name s0 R : Str), (∀ c ∈ name, c ≠ '"') →
    (∀ c ∈ s0, c ≠ '"') →
    (name ++ ['"']).isPrefixOf (s0 ++ ('"' :: R)) = true → name = s0 := by
  intro name
  induction name with
  | nil =>
    intro s0 R hn hs h
    cases s0 with
    | nil => rfl
    | cons c t =>
      rw [List.nil_append, List.cons_append, List.isPrefixOf] at h
      simp only [Bool.and_eq_true, beq_iff_eq] at h
      exact absurd h.1.symm (hs c (by simp))
  | cons c n ih =>
    intro s0 R hn hs h
    cases s0 with
    | nil =>
      rw [List.cons_append, List.nil_append, List.isPrefixOf] at h
      simp only [Bool.and_eq_true, beq_iff_eq] at h
      exact absurd h.1 (hn c (by simp))
    | cons d t =>
      rw [List.cons_append, List.cons_append, List.isPrefixOf] at h
      simp only [Bool.and_eq_true, beq_iff_eq] at h
      have := ih t R (fun x hx => hn x (by simp [hx])) (fun x hx => hs x (by simp [hx])) h.2
      rw [h.1, this]

/-- A pattern cannot match at the closing quote of a string token: what
follows is a rendering, whose first character can never start the name. -/
theorem matchEmptyField_at_close {name : Str} {l : List Ann} {trail : Str}
    (hname : nameOk name = true) (hl : annOk l = true) (htr : wsOk trail = true) :
    matchEmptyField name ('"' :: renderAnn l trail) = none := by
  obtain ⟨h, n', hn⟩ : ∃ h n', name = h :: n' := by
    cases name with
    | nil => simp [nameOk] at hname
    | cons h n' => exact ⟨h, n', rfl⟩
  have hh : tokStartCh h = false := by
    rw [hn, nameOk] at hname
    simp only [Bool.and_eq_true] at hname
    simpa using hname.2
  rw [matchEmptyField]
  have : (('"' :: (name ++ ['"'])).isPrefixOf ('"' :: renderAnn l trail)) = false := by
    rw [List.isPrefixOf]
    simp only [beq_self_eq_true, Bool.true_and]
    cases hr : renderAnn l trail with
    | nil =>
      rw [hn]
      rfl
    | cons c cs =>
      have hc := renderAnn_head hl htr c cs hr
      rw [hn, List.cons_append, List.isPrefixOf]
      have hne : h ≠ c := by
        intro he
        rw [he, hc] at hh
        exact absurd hh (by decide)
      simp [hne]
  rw [this]
  rfl

theorem nameOk_no_quote {name : Str} (h : nameOk name = true) : ∀ c ∈ name, c ≠ '"' := by
  cases name with
  | nil => simp
  | cons c t =>
    rw [nameOk] at h
    exact strContentOk_no_quote ((Bool.and_eq_true _ _).mp h).1

theorem wsOk_dropWhile_nil {w : Str} (h : wsOk w = true) : w.dropWhile isGoWs = [] := by
  have h2 := dropWhile_goWs_append (w := w) (y := []) (List.all_eq_true.mp h)
  simpa using h2

/-- A pattern match at the opening quote of a rendered string token fails
unless the token's content is exactly the name and a colon token and an
empty-string token follow. -/
theorem matchEmptyField_str_none {name s0 : Str} {rest : List Ann} {trail : Str}
    (hname : nameOk name = true) (hs0 : strContentOk s0 = true)
    (hrest : annOk rest = true) (htr : wsOk trail = true)
    (hneg : ¬(s0 = name ∧ ∃ w2 w3 rest2, rest = (w2, .colon) :: ((w3, .str []) :: rest2))) :
    matchEmptyField name ('"' :: (s0 ++ ('"' :: renderAnn rest trail))) = none := by
  by_cases heq : s0 = name
  · subst heq
    have hsplit : ('"' :: (s0 ++ ('"' :: renderAnn rest trail))) =
        ('"' :: (s0 ++ ['"'])) ++ renderAnn rest trail := by
      simp
    have hlen : s0.length + 2 = ('"' :: (s0 ++ ['"'])).length := by
      simp
    rw [matchEmptyField, hsplit, isPrefixOf_append_self, hlen, drop_append_exact]
    cases rest with
    | nil =>
      rw [renderAnn, wsOk_dropWhile_nil htr]
      simp
    | cons a rest2 =>
      obtain ⟨w2, t2⟩ := a
      obtain ⟨hw2, ht2, hrest2⟩ := annOk_cons hrest
      obtain ⟨c, cs, hto, hhead⟩ := tokText_head2 ht2
      rw [renderAnn, dropWhile_goWs_append (List.all_eq_true.mp hw2), hto,
        List.cons_append, dropWhile_goWs_head (tokHeadCh_not_goWs hhead)]
      by_cases hcol : t2 = .colon
      · subst hcol
        have hc : c = ':' ∧ cs = [] := by
          rw [tokText] at hto
          refine ⟨by injection hto with h1 h2; exact h1.symm, ?_⟩
          injection hto with h1 h2
          exact h2.symm
        obtain ⟨hc1, hc2⟩ := hc
        subst hc1
        subst hc2
        simp only [List.head?_cons, List.nil_append, List.tail_cons, if_pos]
        cases rest2 with
        | nil =>
          rw [renderAnn, wsOk_dropWhile_nil htr]
          simp
        | cons b rest3 =>
          obtain ⟨w3, t3⟩ := b
          obtain ⟨hw3, ht3, hrest3⟩ := annOk_cons hrest2
          obtain ⟨c3, cs3, hto3, hhead3⟩ := tokText_head2 ht3
          rw [renderAnn, dropWhile_goWs_append (List.all_eq_true.mp hw3), hto3,
            List.cons_append, dropWhile_goWs_head (tokHeadCh_not_goWs hhead3)]
          by_cases hstr : ∃ u, t3 = .str u
          · obtain ⟨u, hu⟩ := hstr
            subst hu
            cases u with
            | nil => exact absurd ⟨rfl, w2, w3, rest3, rfl⟩ hneg
            | cons d u2 =>
              have hd : d ≠ '"' :=
                strContentOk_no_quote (by simpa [tokOk] using ht3) d (by simp)
              rw [tokText] at hto3
              injection hto3 with h1 h2
              subst h1
              rw [← h2]
              have : ((('"' :: ['"']) : Str).isPrefixOf
                  ('"' :: ((d :: u2 ++ ['"']) ++ renderAnn rest3 trail))) = false := by
                rw [List.isPrefixOf, List.cons_append, List.cons_append, List.isPrefixOf]
                simp [Ne.symm hd]
              rw [this]
              simp
          · have hc3 : c3 ≠ '"' :=
              tokText_head_ne_quote ht3 (fun u hu => hstr ⟨u, hu⟩) c3 cs3 hto3
            have : ((('"' :: ['"']) : Str).isPrefixOf
                (c3 :: (cs3 ++ renderAnn rest3 trail))) = false := by
              rw [List.isPrefixOf]
              simp [Ne.symm hc3]
            rw [this]
            simp
      · have hc : c ≠ ':' := tokText_head_ne_colon ht2 hcol c cs hto
        simp [hc]
  · rw [matchEmptyField]
    have hpf : (('"' :: (name ++ ['"'])).isPrefixOf
        ('"' :: (s0 ++ ('"' :: renderAnn rest trail)))) = false := by
      rw [List.isPrefixOf]
      simp only [beq_self_eq_true, Bool.true_and]
      rw [Bool.eq_false_iff]
      intro hpre
      have hpre2 : ((name ++ ['"']).isPrefixOf (s0 ++ ('"' :: renderAnn rest trail))) = true := by
        simpa using hpre
      exact heq
        (quoted_prefix_eq name s0 (renderAnn rest trail) (nameOk_no_quote hname)
          (strContentOk_no_quote hs0) hpre2).symm
    rw [hpf]
    rfl

/-- The central normalization lemma: one `ReplaceAllString` pass over a
rendered body is exactly the token-level rewrite `tokNorm1`, whatever the
field order and whitespace. -/
theorem replace_renderAnn (name : Str) (z : JTok) (hname : nameOk name = true) :
    ∀ (n : Nat) (l : List Ann) (trail : Str), l.length ≤ n → annOk l = true →
    wsOk trail = true →
    replaceEmptyField name (zeroReplacement name z) (renderAnn l trail) =
      renderAnn (tokNorm1 name z l) trail := by
  intro n
  induction n with
  | zero =>
    intro l trail hn hl ht
    cases l with
    | nil =>
      rw [show tokNorm1 name z [] = [] from rfl, renderAnn]
      exact replace_id (wsOk_no_quote ht)
    | cons a rest => simp at hn
  | succ n ih =>
    intro l trail hn hl ht
    cases l with
    | nil =>
      rw [show tokNorm1 name z [] = [] from rfl, renderAnn]
      exact replace_id (wsOk_no_quote ht)
    | cons a rest =>
      obtain ⟨w, t⟩ := a
      obtain ⟨hw, htok, hrest⟩ := annOk_cons hl
      simp only [List.length_cons] at hn
      rw [renderAnn, replace_skip (wsOk_no_quote hw)]
      by_cases hstr : ∃ s0, t = .str s0
      · obtain ⟨s0, rfl⟩ := hstr
        have hs0 : strContentOk s0 = true := by simpa [tokOk] using htok
        by_cases hfull :
            s0 = name ∧ ∃ w2 w3 rest2, rest = (w2, .colon) :: ((w3, .str []) :: rest2)
        · obtain ⟨heq, w2, w3, rest2, hsh⟩ := hfull
          subst hsh
          subst heq
          obtain ⟨hw2, ht2, hrest2⟩ := annOk_cons hrest
          obtain ⟨hw3, ht3, hrest3⟩ := annOk_cons hrest2
          have hrender :
              tokText (.str s0) ++ renderAnn ((w2, .colon) :: ((w3, .str []) :: rest2)) trail =
              '"' :: (s0 ++ ('"' :: (w2 ++ (':' ::
                (w3 ++ ('"' :: ('"' :: renderAnn rest2 trail))))))) := by
            rw [renderAnn, renderAnn, tokText, tokText, tokText]
            simp
          rw [hrender, replace_step_some (matchEmptyField_at_pattern hw2 hw3)]
          have hlen2 : rest2.length ≤ n := by
            simp only [List.length_cons] at hn
            omega
          rw [ih rest2 trail hlen2 hrest3 ht]
          rw [tokNorm1_pattern, if_pos ⟨rfl, rfl⟩]
          rw [renderAnn, renderAnn, renderAnn, zeroReplacement, tokText, tokText]
          simp
        · have hmz := matchEmptyField_str_none hname hs0 hrest ht hfull
          have hshape : tokText (.str s0) ++ renderAnn rest trail =
              '"' :: (s0 ++ ('"' :: renderAnn rest trail)) := by
            rw [tokText]
            simp
          rw [hshape, replace_step_none hmz, replace_skip (strContentOk_no_quote hs0),
            replace_step_none (matchEmptyField_at_close hname hrest ht),
            ih rest trail (by omega) hrest ht]
          have hrhs : tokNorm1 name z ((w, .str s0) :: rest) =
              (w, .str s0) :: tokNorm1 name z rest := by
            by_cases hpat : ∃ w2 w3 u rest2, rest = (w2, .colon) :: ((w3, .str u) :: rest2)
            · obtain ⟨w2, w3, u, rest2, hsh⟩ := hpat
              subst hsh
              rw [tokNorm1_pattern]
              have hcond : ¬(s0 = name ∧ u = []) := by
                intro hc
                exact hfull ⟨hc.1, w2, w3, rest2, by rw [hc.2]⟩
              rw [if_neg hcond]
            · exact tokNorm1_cons_str_nonpattern name z w s0 rest
                (fun w2 w3 u rest2 hsh => hpat ⟨w2, w3, u, rest2, hsh⟩)
          rw [hrhs, renderAnn, tokText]
          simp
      · have hnq := tokText_no_quote htok (fun s hs => hstr ⟨s, hs⟩)
        rw [replace_skip hnq, ih rest trail (by omega) hrest ht]
        have hrhs := tokNorm1_cons_nonstr name z w t rest (fun s hs => hstr ⟨s, hs⟩)
        rw [hrhs, renderAnn]

/-! ### Tokenizing a rendering -/

theorem isJsonWs_not_numChar {c : Char} (h : isJsonWs c = true) : isNumChar c = false := by
  rw [isJsonWs] at h
  simp only [Bool.or_eq_true, decide_eq_true_eq] at h
  rcases h with ((h | h) | h) | h <;> subst h <;> decide

theorem digit_toNat {c : Char} (h : c.isDigit = true) : 48 ≤ c.toNat ∧ c.toNat ≤ 57 := by
  rw [Char.isDigit] at h
  simp only [Bool.and_eq_true, decide_eq_true_eq] at h
  exact ⟨h.1, h.2⟩

theorem digit_ne_char {c : Char} (h : c.isDigit = true) {d : Char}
    (hd : d.toNat < 48 ∨ 57 < d.toNat) : ¬(c = d) := by
  obtain ⟨h1, h2⟩ := digit_toNat h
  intro he
  subst he
  omega

theorem digit_not_jsonWs {c : Char} (h : c.isDigit = true) : isJsonWs c = false := by
  obtain ⟨h1, h2⟩ := digit_toNat h
  rw [Bool.eq_false_iff]
  intro hw
  rw [isJsonWs] at hw
  simp only [Bool.or_eq_true, decide_eq_true_eq] at hw
  rcases hw with ((hw | hw) | hw) | hw <;> subst hw <;> revert h1 <;> decide

theorem tokenize_ws : ∀ {trail : Str}, wsOk trail = true → tokenize trail = some [] := by
  intro trail
  induction trail with
  | nil => intro h; rfl
  | cons c t ih =>
    intro h
    rw [wsOk, List.all_cons] at h
    simp only [Bool.and_eq_true] at h
    rw [tokenize]
    simp only [List.length_cons]
    rw [tokenizeF]
    simp only [h.1, if_true]
    exact ih h.2

theorem tokenize_ws_prefix : ∀ {w : Str}, wsOk w = true →
    ∀ (s : Str), tokenize (w ++ s) = tokenize s := by
  intro w
  induction w with
  | nil => intro h s; rfl
  | cons c t ih =>
    intro h s
    rw [wsOk, List.all_cons] at h
    simp only [Bool.and_eq_true] at h
    rw [List.cons_append, tokenize]
    simp only [List.length_cons]
    rw [tokenizeF]
    simp only [h.1, if_true]
    exact ih h.2 s

theorem takeWhile_append_stop {p : Char → Bool} : ∀ {x y : Str},
    (∀ c ∈ x, p c = true) → (∀ c, y.head? = some c → p c = false) →
    (x ++ y).takeWhile p = x ∧ (x ++ y).dropWhile p = y := by
  intro x
  induction x with
  | nil =>
    intro y hx hy
    cases y with
    | nil => simp
    | cons c t =>
      have := hy c rfl
      simp [List.takeWhile_cons, List.dropWhile_cons, this]
  | cons c t ih =>
    intro y hx hy
    have hc := hx c (by simp)
    have hrec := ih (fun d hd => hx d (by simp [hd])) hy
    simp [List.takeWhile_cons, List.dropWhile_cons, hc, hrec.1, hrec.2]

/-- `readStr` on the rendering of a literal-renderable string content
consumes exactly the content and the closing quote. -/
theorem readStr_render : ∀ {s0 : Str}, strContentOk s0 = true →
    ∀ (rest : Str), readStr (s0 ++ ('"' :: rest)) = some (s0, rest) := by
  intro s0
  induction s0 with
  | nil => intro h rest; rfl
  | cons c t ih =>
    intro h rest
    rw [strContentOk, List.all_cons] at h
    simp only [Bool.and_eq_true] at h
    obtain ⟨hc, ht⟩ := h
    simp only [Bool.and_eq_true, Bool.not_eq_true', decide_eq_false_iff_not] at hc
    obtain ⟨⟨hc1, hc2⟩, hc3⟩ := hc
    rw [List.cons_append, readStr]
    simp only [List.length_cons]
    rw [readStrF]
    rw [if_neg hc1, if_neg hc2, if_neg hc3]
    have e : readStrF ((t ++ ('"' :: rest)).length + 1) (t ++ ('"' :: rest)) =
        some (t, rest) := ih ht rest
    rw [e]
    rfl


/-- The tokenizer consumes a rendered string token. -/
theorem tokenize_cons_str {s0 : Str} (h : strContentOk s0 = true) (rest : Str) :
    tokenize ('"' :: (s0 ++ ('"' :: rest))) =
      (tokenize rest).map (fun q => .str s0 :: q) := by
  have hrs : readStr (s0 ++ ('"' :: rest)) = some (s0, rest) := readStr_render h rest
  rw [tokenize]
  simp only [List.length_cons]
  rw [tokenizeF, hrs]
  have hirr : tokenizeF ((s0 ++ ('"' :: rest)).length + 1) rest = tokenize rest :=
    tokenizeF_irrel _ rest (by simp [List.length_append]; omega)
  rw [if_neg (show ¬(isJsonWs '"' = true) from by decide), if_neg (by decide : ¬('"' = '\x7b')),
    if_neg (by decide : ¬('"' = '\x7d')), if_neg (by decide : ¬('"' = '[')),
    if_neg (by decide : ¬('"' = ']')), if_neg (by decide : ¬('"' = ':')),
    if_neg (by decide : ¬('"' = ',')), if_pos rfl]
  exact congrArg (Option.map (fun q => JTok.str s0 :: q)) hirr

/-- The tokenizer consumes a rendered number token, provided the following
text does not begin with a number character. -/
theorem tokenize_cons_num {r : Str} (h : jsonNumberValid r = true) (rest : Str)
    (hrest : ∀ c, rest.head? = some c → isNumChar c = false) :
    tokenize (r ++ rest) = (tokenize rest).map (fun q => .num r :: q) := by
  obtain ⟨c, r1, he, hc⟩ := jsonNumberValid_head h
  subst he
  have hnc : isNumChar c = true := jsonNumberValid_numChar h c (by simp)
  have hall : ∀ d ∈ r1, isNumChar d = true := fun d hd =>
    jsonNumberValid_numChar h d (by simp [hd])
  obtain ⟨htw, hdw⟩ := takeWhile_append_stop hall hrest
  have hws : isJsonWs c = false := by
    rcases hc with hc | hc
    · subst hc; rfl
    · exact digit_not_jsonWs hc
  have hn1 : ¬(c = '\x7b') := by
    rcases hc with hc | hc
    · subst hc; decide
    · exact digit_ne_char hc (by decide)
  have hn2 : ¬(c = '\x7d') := by
    rcases hc with hc | hc
    · subst hc; decide
    · exact digit_ne_char hc (by decide)
  have hn3 : ¬(c = '[') := by
    rcases hc with hc | hc
    · subst hc; decide
    · exact digit_ne_char hc (by decide)
  have hn4 : ¬(c = ']') := by
    rcases hc with hc | hc
    · subst hc; decide
    · exact digit_ne_char hc (by decide)
  have hn5 : ¬(c = ':') := by
    rcases hc with hc | hc
    · subst hc; decide
    · exact digit_ne_char hc (by decide)
  have hn6 : ¬(c = ',') := by
    rcases hc with hc | hc
    · subst hc; decide
    · exact digit_ne_char hc (by decide)
  have hn7 : ¬(c = '"') := by
    rcases hc with hc | hc
    · subst hc; decide
    · exact digit_ne_char hc (by decide)
  rw [List.cons_append, tokenize]
  simp only [List.length_cons]
  rw [tokenizeF]
  rw [if_neg (by simp [hws]), if_neg hn1, if_neg hn2, if_neg hn3, if_neg hn4,
    if_neg hn5, if_neg hn6, if_neg hn7, if_pos (by simp [hnc]), htw, hdw]
  rw [if_pos h]
  have hirr : tokenizeF (r1.length + rest.length + 1) rest = tokenize rest :=
    tokenizeF_irrel _ rest (by omega)
  simp [hirr]


/-- The tokenizer consumes a rendered `null` keyword. -/
theorem tokenize_cons_null (S : Str) :
    tokenize (chars "null" ++ S) = (tokenize S).map (fun q => .nullT :: q) := by
  have he : chars "null" ++ S = 'n' :: (chars "ull" ++ S) := rfl
  rw [he, tokenize, tokenizeF]
  rw [if_neg (show ¬(isJsonWs 'n' = true) from by decide),
    if_neg (by decide : ¬('n' = '\x7b')),
    if_neg (by decide : ¬('n' = '\x7d')),
    if_neg (by decide : ¬('n' = '[')),
    if_neg (by decide : ¬('n' = ']')),
    if_neg (by decide : ¬('n' = ':')),
    if_neg (by decide : ¬('n' = ',')),
    if_neg (by decide : ¬('n' = '"')),
    if_neg (show ¬(isNumChar 'n' = true) from by decide),
    if_pos rfl,
    if_pos (isPrefixOf_append_self (chars "ull") S)]
  have hdrop : (chars "ull" ++ S).drop 3 = S := rfl
  rw [hdrop]
  exact congrArg (Option.map (fun q => JTok.nullT :: q)) (tokenizeF_irrel _ _ (by
    have h3 : (chars "ull").length = 3 := rfl
    simp [List.length_append, h3]))

/-- The tokenizer consumes a rendered `true` keyword. -/
theorem tokenize_cons_true (S : Str) :
    tokenize (chars "true" ++ S) = (tokenize S).map (fun q => .trueT :: q) := by
  have he : chars "true" ++ S = 't' :: (chars "rue" ++ S) := rfl
  rw [he, tokenize, tokenizeF]
  rw [if_neg (show ¬(isJsonWs 't' = true) from by decide),
    if_neg (by decide : ¬('t' = '\x7b')),
    if_neg (by decide : ¬('t' = '\x7d')),
    if_neg (by decide : ¬('t' = '[')),
    if_neg (by decide : ¬('t' = ']')),
    if_neg (by decide : ¬('t' = ':')),
    if_neg (by decide : ¬('t' = ',')),
    if_neg (by decide : ¬('t' = '"')),
    if_neg (show ¬(isNumChar 't' = true) from by decide),
    if_neg (by decide : ¬('t' = 'n')),
    if_pos rfl,
    if_pos (isPrefixOf_append_self (chars "rue") S)]
  have hdrop : (chars "rue" ++ S).drop 3 = S := rfl
  rw [hdrop]
  exact congrArg (Option.map (fun q => JTok.trueT :: q)) (tokenizeF_irrel _ _ (by
    have h3 : (chars "rue").length = 3 := rfl
    simp [List.length_append, h3]))

/-- The tokenizer consumes a rendered `false` keyword. -/
theorem tokenize_cons_false (S : Str) :
    tokenize (chars "false" ++ S) = (tokenize S).map (fun q => .falseT :: q) := by
  have he : chars "false" ++ S = 'f' :: (chars "alse" ++ S) := rfl
  rw [he, tokenize, tokenizeF]
  rw [if_neg (show ¬(isJsonWs 'f' = true) from by decide),
    if_neg (by decide : ¬('f' = '\x7b')),
    if_neg (by decide : ¬('f' = '\x7d')),
    if_neg (by decide : ¬('f' = '[')),
    if_neg (by decide : ¬('f' = ']')),
    if_neg (by decide : ¬('f' = ':')),
    if_neg (by decide : ¬('f' = ',')),
    if_neg (by decide : ¬('f' = '"')),
    if_neg (show ¬(isNumChar 'f' = true) from by decide),
    if_neg (by decide : ¬('f' = 'n')),
    if_neg (by decide : ¬('f' = 't')),
    if_pos rfl,
    if_pos (isPrefixOf_append_self (chars "alse") S)]
  have hdrop : (chars "alse" ++ S).drop 4 = S := rfl
  rw [hdrop]
  exact congrArg (Option.map (fun q => JTok.falseT :: q)) (tokenizeF_irrel _ _ (by
    have h4 : (chars "alse").length = 4 := rfl
    simp [List.length_append, h4]))

/-- The rendering of a well-formed list whose head token is not a number
never starts with a number character. -/
theorem renderAnn_head_not_numChar {l : List Ann} {trail : Str} (hl : annOk l = true)
    (htr : wsOk trail = true)
    (hhd : ∀ w2 r2 rest, l ≠ (w2, .num r2) :: rest) :
    ∀ c, (renderAnn l trail).head? = some c → isNumChar c = false := by
  intro c hc
  cases l with
  | nil =>
    rw [renderAnn] at hc
    cases trail with
    | nil => simp at hc
    | cons d t =>
      simp only [List.head?_cons, Option.some.injEq] at hc
      subst hc
      exact isJsonWs_not_numChar (by
        rw [wsOk, List.all_cons] at htr
        simp only [Bool.and_eq_true] at htr
        exact htr.1)
  | cons a rest =>
    obtain ⟨w2, t2⟩ := a
    obtain ⟨hw2, ht2, hrest⟩ := annOk_cons hl
    rw [renderAnn] at hc
    cases w2 with
    | cons d t =>
      simp only [List.cons_append, List.head?_cons, Option.some.injEq] at hc
      subst hc
      exact isJsonWs_not_numChar (by
        rw [wsOk, List.all_cons] at hw2
        simp only [Bool.and_eq_true] at hw2
        exact hw2.1)
    | nil =>
      rw [List.nil_append] at hc
      cases t2 with
      | num r2 => exact absurd rfl (hhd [] r2 rest)
      | str u =>
        rw [tokText] at hc
        simp only [List.cons_append, List.head?_cons, Option.some.injEq] at hc
        subst hc
        decide
      | lbrace => rw [tokText] at hc; simp at hc; subst hc; decide
      | rbrace => rw [tokText] at hc; simp at hc; subst hc; decide
      | lbrack => rw [tokText] at hc; simp at hc; subst hc; decide
      | rbrack => rw [tokText] at hc; simp at hc; subst hc; decide
      | colon => rw [tokText] at hc; simp at hc; subst hc; decide
      | comma => rw [tokText] at hc; simp at hc; subst hc; decide
      | nullT => rw [tokText, chars] at hc; simp at hc; subst hc; decide
      | trueT => rw [tokText, chars] at hc; simp at hc; subst hc; decide
      | falseT => rw [tokText, chars] at hc; simp at hc; subst hc; decide

/-- Tokenizing the rendering of a well-formed annotated list recovers
exactly its token sequence. -/
theorem tokenize_renderAnn : ∀ (l : List Ann) (trail : Str), annOk l = true →
    wsOk trail = true → tokenize (renderAnn l trail) = some (l.map Prod.snd) := by
  intro l
  induction l with
  | nil =>
    intro trail hl ht
    rw [renderAnn, tokenize_ws ht]
    rfl
  | cons a rest ih =>
    obtain ⟨w, t⟩ := a
    intro trail hl ht
    obtain ⟨hw, htok, hrest⟩ := annOk_cons hl
    rw [renderAnn, tokenize_ws_prefix hw]
    have hrec := ih trail hrest ht
    cases t with
    | str s0 =>
      have hs0 : strContentOk s0 = true := by simpa [tokOk] using htok
      have he : tokText (.str s0) ++ renderAnn rest trail
          = '"' :: (s0 ++ ('"' :: renderAnn rest trail)) := by
        rw [tokText]
        simp
      rw [he, tokenize_cons_str hs0, hrec]
      simp
    | num r =>
      have hr : jsonNumberValid r = true := by simpa [tokOk] using htok
      have hhd : ∀ c, (renderAnn rest trail).head? = some c → isNumChar c = false := by
        apply renderAnn_head_not_numChar hrest ht
        intro w2 r2 rest2 he2
        have hp : pairOk (.num r) (.num r2) = true := by
          apply annOk_pair
          rw [← he2]
          exact hl
        simp [pairOk] at hp
      rw [show tokText (.num r) = r from rfl, tokenize_cons_num hr _ hhd, hrec]
      simp
    | lbrace =>
      have hstep : tokenize (tokText .lbrace ++ renderAnn rest trail)
          = (tokenize (renderAnn rest trail)).map (fun q => .lbrace :: q) := rfl
      rw [hstep, hrec]
      simp
    | rbrace =>
      have hstep : tokenize (tokText .rbrace ++ renderAnn rest trail)
          = (tokenize (renderAnn rest trail)).map (fun q => .rbrace :: q) := rfl
      rw [hstep, hrec]
      simp
    | lbrack =>
      have hstep : tokenize (tokText .lbrack ++ renderAnn rest trail)
          = (tokenize (renderAnn rest trail)).map (fun q => .lbrack :: q) := rfl
      rw [hstep, hrec]
      simp
    | rbrack =>
      have hstep : tokenize (tokText .rbrack ++ renderAnn rest trail)
          = (tokenize (renderAnn rest trail)).map (fun q => .rbrack :: q) := rfl
      rw [hstep, hrec]
      simp
    | colon =>
      have hstep : tokenize (tokText .colon ++ renderAnn rest trail)
          = (tokenize (renderAnn rest trail)).map (fun q => .colon :: q) := rfl
      rw [hstep, hrec]
      simp
    | comma =>
      have hstep : tokenize (tokText .comma ++ renderAnn rest trail)
          = (tokenize (renderAnn rest trail)).map (fun q => .comma :: q) := rfl
      rw [hstep, hrec]
      simp
    | nullT =>
      have he : tokText .nullT ++ renderAnn rest trail
          = chars "null" ++ renderAnn rest trail := rfl
      rw [he, tokenize_cons_null, hrec]
      simp
    | trueT =>
      have he : tokText .trueT ++ renderAnn rest trail
          = chars "true" ++ renderAnn rest trail := rfl
      rw [he, tokenize_cons_true, hrec]
      simp
    | falseT =>
      have he : tokText .falseT ++ renderAnn rest trail
          = chars "false" ++ renderAnn rest trail := rfl
      rw [he, tokenize_cons_false, hrec]
      simp


/-! ### Well-formedness is preserved by the token-level rewrite -/

theorem isPatAt_inv {name : Str} {a : Ann} {rest : List Ann}
    (h : isPatAt name a rest = true) :
    ∃ w1 w2 w3 rest2, a = (w1, .str name) ∧
      rest = (w2, .colon) :: ((w3, .str []) :: rest2) := by
  obtain ⟨w1, t1⟩ := a
  cases t1
  case str fd =>
    cases rest with
    | nil => simp [isPatAt] at h
    | cons b r =>
      obtain ⟨w2, t2⟩ := b
      cases t2
      case colon =>
        cases r with
        | nil => simp [isPatAt] at h
        | cons c2 r2 =>
          obtain ⟨w3, t3⟩ := c2
          cases t3
          case str u =>
            simp only [isPatAt, decide_eq_true_eq] at h
            exact ⟨w1, w2, w3, r2, by rw [h.1], by rw [h.2]⟩
          all_goals simp [isPatAt] at h
      all_goals simp [isPatAt] at h
  all_goals simp [isPatAt] at h

theorem tokNorm1_head (name : Str) (z : JTok) (l : List Ann) :
    (tokNorm1 name z l).head? = l.head? := by
  cases l with
  | nil => rfl
  | cons a rest =>
    rw [tokNorm1_cons]
    by_cases hp : isPatAt name a rest = true
    · simp [hp]
    · simp only [Bool.not_eq_true] at hp
      simp [hp]

theorem annOk_build {w : Str} {t : JTok} {rest : List Ann}
    (hw : wsOk w = true) (ht : tokOk t = true) (hr : annOk rest = true)
    (hp : ∀ a2, rest.head? = some a2 → pairOk t a2.2 = true) :
    annOk ((w, t) :: rest) = true := by
  rw [annOk] at hr ⊢
  simp only [Bool.and_eq_true, List.all_cons, List.map_cons] at hr ⊢
  refine ⟨⟨⟨hw, ht⟩, hr.1⟩, ?_⟩
  cases rest with
  | nil => rfl
  | cons a2 r2 =>
    rw [List.map_cons, chainOk]
    simp only [Bool.and_eq_true]
    exact ⟨hp a2 rfl, by simpa using hr.2⟩

theorem annOk_head_pair {w : Str} {t : JTok} {rest : List Ann}
    (h : annOk ((w, t) :: rest) = true) :
    ∀ a2, rest.head? = some a2 → pairOk t a2.2 = true := by
  intro a2 h2
  cases rest with
  | nil => simp at h2
  | cons b r =>
    simp only [List.head?_cons, Option.some.injEq] at h2
    subst h2
    obtain ⟨w2, t2⟩ := b
    exact annOk_pair h

theorem annOk_tokNorm1 (name : Str) {z : JTok} (hz : tokOk z = true)
    (hzp : ∀ t2, pairOk (.str []) t2 = true → pairOk z t2 = true) :
    ∀ (n : Nat) (l : List Ann), l.length ≤ n → annOk l = true →
    annOk (tokNorm1 name z l) = true := by
  intro n
  induction n with
  | zero =>
    intro l hn hl
    cases l with
    | nil => exact hl
    | cons a rest => simp at hn
  | succ n ih =>
    intro l hn hl
    cases l with
    | nil => exact hl
    | cons a rest =>
      simp only [List.length_cons] at hn
      rw [tokNorm1_cons]
      by_cases hp : isPatAt name a rest = true
      · simp only [hp, if_true]
        obtain ⟨w1, w2, w3, rest2, ha, hr⟩ := isPatAt_inv hp
        subst ha
        subst hr
        obtain ⟨hw1, ht1, h1⟩ := annOk_cons hl
        obtain ⟨hw2, ht2, h2⟩ := annOk_cons h1
        obtain ⟨hw3, ht3, h3⟩ := annOk_cons h2
        have hT : annOk (tokNorm1 name z rest2) = true := by
          apply ih rest2 (by simp at hn; omega) h3
        have hpz : ∀ a2, (tokNorm1 name z rest2).head? = some a2 → pairOk z a2.2 = true := by
          intro a2 he2
          rw [tokNorm1_head] at he2
          exact hzp a2.2 (annOk_head_pair h2 a2 he2)
        refine annOk_build hw1 ht1 (annOk_build (by decide) (by decide)
          (annOk_build (by decide) hz hT hpz) ?_) ?_
        · intro a2 he2
          simp only [List.head?_cons, Option.some.injEq] at he2
          subst he2
          cases z <;> rfl
        · intro a2 he2
          simp only [List.head?_cons, Option.some.injEq] at he2
          subst he2
          rfl
      · simp only [Bool.not_eq_true] at hp
        simp only [hp, Bool.false_eq_true, if_false]
        obtain ⟨w1, t1⟩ := a
        obtain ⟨hw1, ht1, h1⟩ := annOk_cons hl
        have hT : annOk (tokNorm1 name z rest) = true := ih rest (by omega) h1
        refine annOk_build hw1 ht1 hT ?_
        intro a2 he2
        rw [tokNorm1_head] at he2
        exact annOk_head_pair hl a2 he2


theorem pairOk_str0_of_empty : ∀ t2, pairOk (.str []) t2 = true →
    pairOk (.str (chars "0")) t2 = true := by
  intro t2 h
  cases t2 with
  | num r => simp [pairOk] at h
  | str u => rfl
  | lbrace => rfl
  | rbrace => rfl
  | lbrack => rfl
  | rbrack => rfl
  | colon => rfl
  | comma => rfl
  | nullT => rfl
  | trueT => rfl
  | falseT => rfl

theorem pairOk_num0_of_empty : ∀ t2, pairOk (.str []) t2 = true →
    pairOk (.num (chars "0")) t2 = true := by
  intro t2 h
  cases t2 with
  | num r => simp [pairOk] at h
  | str u => rfl
  | lbrace => rfl
  | rbrace => rfl
  | lbrack => rfl
  | rbrack => rfl
  | colon => rfl
  | comma => rfl
  | nullT => rfl
  | trueT => rfl
  | falseT => rfl

/-- The four textual repairs over a rendering are exactly the four
token-level repairs, and they preserve well-formedness. -/
theorem normalizeBody_renderAnn {l : List Ann} {trail : Str} (hl : annOk l = true)
    (ht : wsOk trail = true) :
    normalizeBody (renderAnn l trail) = renderAnn (tokNormalize l) trail ∧
    annOk (tokNormalize l) = true := by
  have a1 : annOk (tokNorm1 (chars "parent_media_index") (.str (chars "0")) l) = true :=
    annOk_tokNorm1 _ (by decide) pairOk_str0_of_empty _ l le_rfl hl
  have a2 : annOk (tokNorm1 (chars "media_index") (.str (chars "0"))
      (tokNorm1 (chars "parent_media_index") (.str (chars "0")) l)) = true :=
    annOk_tokNorm1 _ (by decide) pairOk_str0_of_empty _ _ le_rfl a1
  have a3 : annOk (tokNorm1 (chars "watched_status") (.num (chars "0"))
      (tokNorm1 (chars "media_index") (.str (chars "0"))
        (tokNorm1 (chars "parent_media_index") (.str (chars "0")) l))) = true :=
    annOk_tokNorm1 _ (by decide) pairOk_num0_of_empty _ _ le_rfl a2
  have a4 : annOk (tokNormalize l) = true := by
    rw [tokNormalize]
    exact annOk_tokNorm1 _ (by decide) pairOk_num0_of_empty _ _ le_rfl a3
  refine ⟨?_, a4⟩
  rw [normalizeBody, tokNormalize]
  rw [replace_renderAnn _ _ (by decide) _ l trail le_rfl hl ht]
  rw [replace_renderAnn _ _ (by decide) _ _ trail le_rfl a1 ht]
  rw [replace_renderAnn _ _ (by decide) _ _ trail le_rfl a2 ht]
  rw [replace_renderAnn _ _ (by decide) _ _ trail le_rfl a3 ht]

/-- C1: for every response body (an arbitrary well-formed token sequence
under arbitrary whitespace) in which any of the four fields appears with
an empty-string value, the pre-decode normalization rewrites each such
member to the field's zero value — `"0"` for `parent_media_index` and
`media_index`, unquoted `0` for `watched_status` and `percent_complete`,
as recorded by `tokNormalize` — and `json.Unmarshal` on the normalized
body gives the same result as on any body whose token sequence carried
the zero values originally, independent of field order and whitespace. -/
theorem c1_empty_field_normalization (l l2 : List Ann) (trail trail2 : Str)
    (hl : annOk l = true) (ht : wsOk trail = true)
    (hl2 : annOk l2 = true) (ht2 : wsOk trail2 = true)
    (hsame : l2.map Prod.snd = (tokNormalize l).map Prod.snd) :
    normalizeBody (renderAnn l trail) = renderAnn (tokNormalize l) trail ∧
    goUnmarshalTautulli (normalizeBody (renderAnn l trail)) =
      goUnmarshalTautulli (renderAnn l2 trail2) := by
  obtain ⟨e, a4⟩ := normalizeBody_renderAnn hl ht
  refine ⟨e, ?_⟩
  rw [e, goUnmarshalTautulli, goUnmarshalTautulli,
    tokenize_renderAnn _ trail a4 ht, tokenize_renderAnn _ trail2 hl2 ht2, hsame]

/-- A body `{"watched_status" : ""}` (whitespace around the colon). -/
def exampleRawBody : List Ann :=
  [([], .lbrace), ([], .str (chars "watched_status")), ([' '], .colon),
    ([' '], .str []), ([], .rbrace)]

/-- A body whose `watched_status` is the unquoted zero originally, with
different whitespace. -/
def exampleZeroBody : List Ann :=
  [([], .lbrace), ([' '], .str (chars "watched_status")), ([], .colon),
    ([' '], .num (chars "0")), ([' '], .rbrace)]

theorem c1_empty_field_normalization_witness :
    (annOk exampleRawBody = true ∧ wsOk [] = true ∧ annOk exampleZeroBody = true ∧
      wsOk [' '] = true ∧
      exampleZeroBody.map Prod.snd = (tokNormalize exampleRawBody).map Prod.snd) ∧
    normalizeBody (renderAnn exampleRawBody []) =
      renderAnn (tokNormalize exampleRawBody) [] ∧
    goUnmarshalTautulli (normalizeBody (renderAnn exampleRawBody [])) =
      goUnmarshalTautulli (renderAnn exampleZeroBody [' ']) := by
  have h := c1_empty_field_normalization exampleRawBody exampleZeroBody [] [' ']
    (by decide) (by decide) (by decide) (by decide) (by decide)
  exact ⟨⟨by decide, by decide, by decide, by decide, by decide⟩, h.1, h.2⟩


end PlexClean
